import Mathlib

/-!
# ThreadSanitizer libdispatch shim (`lib/tsan/rtl/tsan_libdispatch_mac.cc`)

A shallow embedding of the interceptors of `tsan_libdispatch_mac.cc` and the
properties of the synchronisation edges they insert.

The development has three parts.

* `Once`  : `dispatch_once` / `dispatch_once_f` as functions on a sequential world
  (one thread; the wait loop carries fuel).
* `Conc`  : `dispatch_once` as a small-step machine, one program counter per thread,
  with atomic load / compare-exchange / store as single steps on a shared word.
  `Conc.solo_agrees` relates it to the sequential function.
* `Submit`: context records, the trampoline `dispatch_callback_wrap_acquire`, and the
  two submission wrapper shapes `DISPATCH_INTERCEPT_B` / `DISPATCH_INTERCEPT_F`.

Conventions. Addresses, queue handles and the names of opaque user code are natural
numbers. The interceptor scope (`SCOPED_TSAN_INTERCEPTOR`, `SCOPED_INTERCEPTOR_RAW`)
furnishes `thr` and `pc`; the sequential models do not record them, the interleaved
model records the thread of every event. The detector primitives, the allocator, the
atomic operations, the closure copy and release, and the original entry points are
defined outside `tsan_libdispatch_mac.cc`; their models here are marked as such. The
allocators may hand out a freed address again: the theorems hold for every `Allocator`.
Traces list events oldest first.
-/

namespace Once

/-- Detector and instrumentation events seen by one thread running the once wrapper.
`invoke a` marks line 115 (`block()`) of the call whose predicate is at address `a`. -/
inductive Event where
  | invoke (addr : Nat)
  | release (addr : Nat)
  | acquire (addr : Nat)
  | yield
  deriving DecidableEq, Repr

/-- The sequential world: 32-bit atomic cells by address, and the event trace
(oldest event first). -/
structure World where
  mem : Nat → Nat
  trace : List Event

/-- Result of running code with bounded fuel for the busy-wait loop: either the call
returned, or it is still spinning in the loop of lines 119-122 when fuel ran out. -/
inductive Outcome where
  | returned (w : World)
  | spinning (w : World)

/-- A `dispatch_block_t`: a closure taking no argument, acting on the world. -/
abbrev Block := World → Outcome

/-- A `dispatch_function_t`: a function of one opaque context pointer. -/
abbrev WorkFunction := Nat → World → Outcome

/-- Append one event to the trace. -/
def World.emit (w : World) (e : Event) : World :=
  { w with trace := w.trace ++ [e] }

/-- Modelled from the spec: `Release(thr, pc, tag)` of the detector core (tsan_rtl),
which publishes a synchronisation edge tagged by an address; here the event only. -/
def Release (w : World) (addr : Nat) : World := w.emit (.release addr)

/-- Modelled from the spec: `Acquire(thr, pc, tag)` of the detector core (tsan_rtl),
which consumes the edge tagged by an address; here the event only. -/
def Acquire (w : World) (addr : Nat) : World := w.emit (.acquire addr)

/-- Modelled from the spec: `internal_sched_yield()` of sanitizer_common, a cooperative
yield with no effect on the memory of this thread. -/
def internal_sched_yield (w : World) : World := w.emit .yield

/-- Modelled from the spec: `atomic_load(a, memory_order_acquire)` on a 32-bit cell. -/
def atomic_load (w : World) (a : Nat) : Nat := w.mem a

/-- Modelled from the spec: `atomic_store(a, v, memory_order_release)` on a 32-bit cell. -/
def atomic_store (w : World) (a v : Nat) : World :=
  { w with mem := Function.update w.mem a v }

/-- Modelled from the spec: `atomic_compare_exchange_strong(a, &cmp, xchg, mo)`.
Returns the new world, the new value of `cmp` (the value seen on failure), and
whether the exchange happened. -/
def atomic_compare_exchange_strong (w : World) (a cmp xchg : Nat) : World × Nat × Bool :=
  if w.mem a = cmp then (atomic_store w a xchg, cmp, true) else (w, w.mem a, false)

/-- Lines 119-122: `while (v != 2) { internal_sched_yield(); v = atomic_load(a, acquire); }`.
One unit of fuel pays for one iteration. -/
def dispatch_once_wait (a : Nat) : Nat → Nat → World → Outcome
  | fuel, v, w =>
    if v ≠ 2 then
      match fuel with
      | 0 => .spinning w
      | fuel + 1 =>
        let w1 := internal_sched_yield w
        dispatch_once_wait a fuel (atomic_load w1 a) w1
    else .returned w

/-- Lines 118-124: the `else` branch, the wait loop followed by `Acquire(thr, pc, a)`. -/
def dispatch_once_observe (fuel : Nat) (a v : Nat) (w : World) : Outcome :=
  match dispatch_once_wait a fuel v w with
  | .returned w1 => .returned (Acquire w1 a)
  | .spinning w1 => .spinning w1

/-- Lines 108-125: `TSAN_INTERCEPTOR(void, dispatch_once, predicate, block)`. -/
def dispatch_once (fuel : Nat) (predicate : Nat) (block : Block) (w : World) : Outcome :=
  let a := predicate
  let v := atomic_load w a
  if v = 0 then
    match atomic_compare_exchange_strong w a v 1 with
    | (w1, _, true) =>
      match block (w1.emit (.invoke a)) with
      | .returned w2 => .returned (atomic_store (Release w2 a) a 2)
      | .spinning w2 => .spinning w2
    | (w1, v1, false) => dispatch_once_observe fuel a v1 w1
  else dispatch_once_observe fuel a v w

/-- Lines 128-134: `TSAN_INTERCEPTOR(void, dispatch_once_f, predicate, context, function)`
calls the `dispatch_once` wrapper with the closure `^(void) { function(context); }`. -/
def dispatch_once_f (fuel : Nat) (predicate : Nat) (context : Nat) (function : WorkFunction)
    (w : World) : Outcome :=
  dispatch_once fuel predicate (fun w1 => function context w1) w

/-- Sequencing of two computations: the second runs only if the first returned. -/
def Outcome.andThen (o : Outcome) (k : World → Outcome) : Outcome :=
  match o with
  | .returned w => k w
  | .spinning w => .spinning w

/-- The wrapper called `n` times in a row on the same predicate with the same closure. -/
def callN (fuel : Nat) (p : Nat) (f : Block) : Nat → World → Outcome
  | 0, w => .returned w
  | n + 1, w => (dispatch_once fuel p f w).andThen (callN fuel p f n)

/-- Number of `invoke p` events in a trace: how often a `dispatch_once` call on
predicate `p` has run its closure. -/
def invocations (p : Nat) (t : List Event) : Nat := t.count (.invoke p)

/-- One call of a sequential mix: either `dispatch_once(p, block)` or
`dispatch_once_f(p, context, function)`. -/
inductive OnceCall where
  | once (block : Block)
  | once_f (context : Nat) (function : WorkFunction)

/-- Run one call of a mix on predicate `p` through the corresponding wrapper. -/
def OnceCall.run (fuel p : Nat) : OnceCall → World → Outcome
  | .once b, w => dispatch_once fuel p b w
  | .once_f c f, w => dispatch_once_f fuel p c f w

/-- The work item a call supplies: the closure itself, or `function(context)`. -/
def OnceCall.work : OnceCall → Block
  | .once b => b
  | .once_f c f => fun w => f c w

/-- A list of calls on predicate `p`, run in sequence. -/
def runCalls (fuel p : Nat) : List OnceCall → World → Outcome
  | [], w => .returned w
  | c :: cs, w => (c.run fuel p w).andThen (runCalls fuel p cs)

end Once

namespace Conc

/-- Events of the interleaved executions, each recorded with the thread that made it.
`load`, `cas_ok`, `cas_fail`, `store` are the atomic accesses of lines 112, 114, 117, 121;
`invoke` / `block_ret` are the call and return of `block()` on line 115. -/
inductive Ev where
  | load (v : Nat)
  | cas_ok
  | cas_fail (v : Nat)
  | invoke
  | block_ret
  | release (addr : Nat)
  | store (v : Nat)
  | yield
  | acquire (addr : Nat)
  deriving DecidableEq, Repr

/-- Program counter of one thread inside `dispatch_once` (lines 108-125), with the
value of the local `v` where it is live. -/
inductive Pc where
  /-- Line 112, before `v = atomic_load(a)`. -/
  | entry
  /-- Line 113, `v` loaded, before the test `v == 0 && compare_exchange`. -/
  | loaded (v : Nat)
  /-- Line 115, before `block()`. -/
  | call_block
  /-- Line 115, inside `block()`. -/
  | in_block
  /-- Line 116, before `Release(thr, pc, a)`. -/
  | release
  /-- Line 117, before `atomic_store(a, 2)`. -/
  | store
  /-- Line 119, before the test `v != 2`. -/
  | test (v : Nat)
  /-- Line 120, before `internal_sched_yield()`. -/
  | yield
  /-- Line 121, before `v = atomic_load(a)`. -/
  | reload
  /-- Line 123, before `Acquire(thr, pc, a)`. -/
  | acquire
  /-- Line 125, the call has returned. -/
  | ret
  deriving DecidableEq, Repr

/-- Global state: the shared predicate word, the program counter of every thread, and
the global trace (oldest event first). -/
structure State where
  word : Nat
  pc : Nat → Pc
  trace : List (Nat × Ev)

/-- Every thread is at the entry of the wrapper and the predicate word is UNSEEN. -/
def init : State := { word := 0, pc := fun _ => .entry, trace := [] }

/-- Move thread `t` to `pc`, leave the word alone, and record the events `es`. -/
def State.goto (s : State) (t : Nat) (pc : Pc) (es : List Ev) : State :=
  { s with pc := Function.update s.pc t pc, trace := s.trace ++ es.map (fun e => (t, e)) }

/-- One step of thread `t` in `dispatch_once` on the predicate at address `a`.
A thread that has returned does not move. -/
def step (a : Nat) (t : Nat) (s : State) : State :=
  match s.pc t with
  | .entry => s.goto t (.loaded s.word) [.load s.word]
  | .loaded v =>
    if v = 0 then
      if s.word = v then { s.goto t .call_block [.cas_ok] with word := 1 }
      else s.goto t (.test s.word) [.cas_fail s.word]
    else s.goto t (.test v) []
  | .call_block => s.goto t .in_block [.invoke]
  | .in_block => s.goto t .release [.block_ret]
  | .release => s.goto t .store [.release a]
  | .store => { s.goto t .ret [.store 2] with word := 2 }
  | .test v => if v ≠ 2 then s.goto t .yield [] else s.goto t .acquire []
  | .yield => s.goto t .reload [.yield]
  | .reload => s.goto t (.test s.word) [.load s.word]
  | .acquire => s.goto t .ret [.acquire a]
  | .ret => s

/-- Run a schedule: the list of thread identifiers, in the order in which they step. -/
def run (a : Nat) (sched : List Nat) (s : State) : State :=
  sched.foldl (fun s t => step a t s) s

/-- Events that are not part of the wait path: everything except loads, failed
compare-exchanges and yields. -/
def isMilestone : Ev → Bool
  | .load _ => false
  | .cas_fail _ => false
  | .yield => false
  | _ => true

/-- The milestone events of a trace, in order. -/
def milestones (tr : List (Nat × Ev)) : List (Nat × Ev) :=
  tr.filter (fun x => isMilestone x.2)

/-- The milestone events of a complete initialiser `w`, in program order. -/
def winnerEvents (a w : Nat) : List (Nat × Ev) :=
  [(w, .cas_ok), (w, .invoke), (w, .block_ret), (w, .release a), (w, .store 2)]

/-- Where the initialiser stands after its `k+1`-th milestone event (`k < 4`). -/
def initPc : Nat → Pc
  | 0 => .call_block
  | 1 => .in_block
  | 2 => .release
  | _ => .store

/-- Program counters a thread on the wait path can have while the word is `word`. -/
def waitOk (word : Nat) : Pc → Prop
  | .entry => True
  | .loaded v => v ≤ word
  | .test v => 1 ≤ v ∧ v ≤ word
  | .yield => 1 ≤ word
  | .reload => 1 ≤ word
  | .acquire => word = 2
  | .ret => word = 2
  | _ => False

/-- The program counters of the wait path (lines 112-113 and 119-125). -/
def onWaitPath : Pc → Bool
  | .call_block => false
  | .in_block => false
  | .release => false
  | .store => false
  | _ => true

/-- Events a thread on the wait path emits: loads, a failed compare-exchange,
yields, and the final `Acquire`. -/
def isWaitEvent : Ev → Bool
  | .load _ => true
  | .cas_fail _ => true
  | .yield => true
  | .acquire _ => true
  | _ => false

/-- The invariant of the interleaved executions, by phase of the predicate word:
UNSEEN with nobody past the load; IN_PROGRESS with one initialiser `w` that has made
its first `k+1` milestone events; DONE with `w` returned and the observers `acqs` having
acquired, in that order. -/
def Inv (a : Nat) (s : State) : Prop :=
  (s.word = 0 ∧ milestones s.trace = [] ∧ ∀ t, waitOk 0 (s.pc t))
  ∨ (∃ (w k : Nat), k < 4 ∧ s.word = 1 ∧ milestones s.trace = (winnerEvents a w).take (k + 1)
      ∧ s.pc w = initPc k ∧ ∀ t, t ≠ w → waitOk 1 (s.pc t))
  ∨ (∃ (w : Nat) (acqs : List Nat), s.word = 2
      ∧ milestones s.trace = winnerEvents a w ++ acqs.map (fun t => (t, .acquire a))
      ∧ s.pc w = .ret ∧ w ∉ acqs ∧ acqs.Nodup
      ∧ ∀ t, t ≠ w → waitOk 2 (s.pc t) ∧ (s.pc t = .ret ↔ t ∈ acqs))

end Conc

namespace Conc

/-- The events of the interleaved model that the sequential model of `dispatch_once`
records too, for the predicate at address `a`. -/
def toOnce (a : Nat) : Ev → Option Once.Event
  | .invoke => some (.invoke a)
  | .release b => some (.release b)
  | .acquire b => some (.acquire b)
  | .yield => some .yield
  | _ => none

/-- The sequential view of the events of thread `t` in a global trace. -/
def soloTrace (a t : Nat) (tr : List (Nat × Ev)) : List Once.Event :=
  (tr.filter (fun x => x.1 = t)).filterMap (fun x => toOnce a x.2)

end Conc

namespace Submit

/-- The closure-form entry points wrapped by `DISPATCH_INTERCEPT_B` (lines 86-87, 90-91). -/
inductive BlockEntry where
  | dispatch_async
  | dispatch_barrier_async
  | dispatch_sync
  | dispatch_barrier_sync
  deriving DecidableEq, Repr

/-- The function-pointer-form entry points wrapped by `DISPATCH_INTERCEPT_F`
(lines 88-89, 92-93). -/
inductive FuncEntry where
  | dispatch_async_f
  | dispatch_barrier_async_f
  | dispatch_sync_f
  | dispatch_barrier_sync_f
  deriving DecidableEq, Repr

/-- The token pasting `name##_f` of line 69. -/
def BlockEntry.f : BlockEntry → FuncEntry
  | .dispatch_async => .dispatch_async_f
  | .dispatch_barrier_async => .dispatch_barrier_async_f
  | .dispatch_sync => .dispatch_sync_f
  | .dispatch_barrier_sync => .dispatch_barrier_sync_f

/-- Values of type `dispatch_function_t`: a user function (opaque, named by a number),
or one of the two static functions of this file. -/
inductive WorkFn where
  | user (f : Nat)
  | invoke_and_release_block
  | dispatch_callback_wrap_acquire
  deriving DecidableEq, Repr

/-- Lines 30-34: the context record `tsan_block_context_t`. -/
structure tsan_block_context_t where
  queue : Nat
  orig_context : Nat
  orig_work : WorkFn
  deriving DecidableEq, Repr

/-- Heap objects: a context record, or a heap copy of a closure, identified by the
closure body it runs. -/
inductive Obj where
  | context (c : tsan_block_context_t)
  | block (body : Nat)
  deriving DecidableEq, Repr

/-- A work item held by the dispatcher: submitted through a function-pointer entry
point as `(queue, context, work)`, or through a closure entry point as `(queue, block)`. -/
inductive Item where
  | fn (name : FuncEntry) (queue : Nat) (context : Nat) (work : WorkFn)
  | blk (name : BlockEntry) (queue : Nat) (body : Nat)
  deriving DecidableEq, Repr

/-- Events of the submission paths, oldest first in a trace. `call f x` is the user
function `f` applied to `x`; `block_invoke b` is a run of the closure body `b`;
`real_f` / `real_b` are calls of the original entry points. -/
inductive Event where
  | user_alloc (addr : Nat)
  | user_free (addr : Nat)
  | release (addr : Nat)
  | acquire (addr : Nat)
  | block_copy (body : Nat) (heap : Nat)
  | block_invoke (body : Nat)
  | block_release (heap : Nat)
  | call (f : Nat) (arg : Nat)
  | real_f (name : FuncEntry) (queue : Nat) (context : Nat) (work : WorkFn)
  | real_b (name : BlockEntry) (queue : Nat) (body : Nat)
  deriving DecidableEq, Repr

/-- The world of the submission paths: the heap of live objects, an address `next` above
every block handed out so far, the work items the dispatcher holds, and the trace. -/
structure World where
  heap : Nat → Option Obj
  next : Nat
  pending : List Item
  trace : List Event

/-- Append one event to the trace. -/
def World.emit (w : World) (e : Event) : World :=
  { w with trace := w.trace ++ [e] }

/-- Modelled from the spec: `Release(thr, pc, tag)` of the detector core. -/
def Release (w : World) (addr : Nat) : World := w.emit (.release addr)

/-- Modelled from the spec: `Acquire(thr, pc, tag)` of the detector core. -/
def Acquire (w : World) (addr : Nat) : World := w.emit (.acquire addr)

/-- Modelled from the spec: the choice of block made by the two allocators the wrappers
use, the host allocator behind `user_alloc` and the platform one behind `Block_copy`.
Each is any function of the world, so a block that has been freed may be handed out
again. -/
structure Allocator where
  record_block : World → Nat
  closure_block : World → Nat

/-- The block an allocator hands out: its candidate when that block is not live,
otherwise the address `w.next`, above every block handed out so far. A live block is
never handed out; a freed one may be. -/
def World.pick (w : World) (candidate : Nat) : Nat :=
  if w.heap candidate = none then candidate else w.next

/-- Modelled from the spec: `user_alloc(thr, pc, size)` of the host allocator. The block
is returned uninitialised; it is distinct from every live block, not from freed ones. -/
def user_alloc (al : Allocator) (w : World) : Nat × World :=
  let p := w.pick (al.record_block w)
  (p, { w with next := max w.next (p + 1), trace := w.trace ++ [.user_alloc p] })

/-- Modelled from the spec: `user_free(thr, pc, p)` of the host allocator. -/
def user_free (w : World) (p : Nat) : World :=
  { w with heap := Function.update w.heap p none, trace := w.trace ++ [.user_free p] }

/-- Modelled from the spec: `Block_copy(block)` of the platform, which copies a closure
onto the heap and returns the copy. -/
def Block_copy (al : Allocator) (block : Nat) (w : World) : Nat × World :=
  let p := w.pick (al.closure_block w)
  (p, { w with heap := Function.update w.heap p (some (.block block)),
               next := max w.next (p + 1),
               trace := w.trace ++ [.block_copy block p] })

/-- Modelled from the spec: `Block_release(block)` of the platform, which drops the
reference held on a heap copy. -/
def Block_release (w : World) (block : Nat) : World :=
  { w with heap := Function.update w.heap block none,
           trace := w.trace ++ [.block_release block] }

/-- Lines 36-46: `AllocContext(thr, pc, queue, orig_context, orig_work)`. -/
def AllocContext (al : Allocator) (w : World) (queue : Nat) (orig_context : Nat)
    (orig_work : WorkFn) : Nat × World :=
  let (new_context, w1) := user_alloc al w
  (new_context,
    { w1 with heap := Function.update w1.heap new_context
                        (some (.context ⟨queue, orig_context, orig_work⟩)) })

/-- Lines 56-60: `invoke_and_release_block(param)`. Fails when `param` is not a live
heap closure. -/
def invoke_and_release_block (param : Nat) (w : World) : Option World :=
  match w.heap param with
  | some (.block body) => some (Block_release (w.emit (.block_invoke body)) param)
  | _ => none

/-- Lines 48-54: `dispatch_callback_wrap_acquire(param)`, given the way to call a
function pointer. Fails when `param` is not a live context record, or when the call of
`orig_work` does not return. -/
def dispatch_callback_wrap_acquire (call : WorkFn → Nat → World → Option World)
    (param : Nat) (w : World) : Option World :=
  match w.heap param with
  | some (.context context) =>
    let w1 := Acquire w param
    match call context.orig_work context.orig_context w1 with
    | some w2 => some (user_free w2 param)
    | none => none
  | _ => none

/-- Call of a `dispatch_function_t` on an argument. A user function is opaque: its call
is recorded. Fuel bounds the nesting of trampolines. -/
def callFn : Nat → WorkFn → Nat → World → Option World
  | _, .user f, arg, w => some (w.emit (.call f arg))
  | _, .invoke_and_release_block, param, w => invoke_and_release_block param w
  | 0, .dispatch_callback_wrap_acquire, _, _ => none
  | fuel + 1, .dispatch_callback_wrap_acquire, param, w =>
    dispatch_callback_wrap_acquire (callFn fuel) param w

/-- Modelled from the spec: `REAL(name)(q, context, work)` for a function-pointer entry
point of the platform dispatcher, which takes the work item. -/
def REAL_f (name : FuncEntry) (q : Nat) (context : Nat) (work : WorkFn) (w : World) : World :=
  { w with pending := w.pending ++ [.fn name q context work],
           trace := w.trace ++ [.real_f name q context work] }

/-- Modelled from the spec: `REAL(name)(q, block)` for a closure entry point of the
platform dispatcher, which takes the work item. -/
def REAL_b (name : BlockEntry) (q : Nat) (block : Nat) (w : World) : World :=
  { w with pending := w.pending ++ [.blk name q block],
           trace := w.trace ++ [.real_b name q block] }

/-- Lines 62-70: `DISPATCH_INTERCEPT_B(name)`, the wrapper of a closure entry point. -/
def DISPATCH_INTERCEPT_B (al : Allocator) (name : BlockEntry) (q : Nat) (block : Nat)
    (w : World) : World :=
  let (heap_block, w1) := Block_copy al block w
  let (new_context, w2) := AllocContext al w1 q heap_block .invoke_and_release_block
  let w3 := Release w2 new_context
  REAL_f name.f q new_context .dispatch_callback_wrap_acquire w3

/-- Lines 72-80: `DISPATCH_INTERCEPT_F(name)`, the wrapper of a function-pointer entry
point. -/
def DISPATCH_INTERCEPT_F (al : Allocator) (name : FuncEntry) (q : Nat) (context : Nat)
    (work : WorkFn) (w : World) : World :=
  let (new_context, w1) := AllocContext al w q context work
  let w2 := Release w1 new_context
  REAL_f name q new_context .dispatch_callback_wrap_acquire w2

/-- The address of the record a function-pointer-form wrapper allocates in `w`. -/
def recordAddr (al : Allocator) (w : World) : Nat := (user_alloc al w).1

/-- The address of the heap copy a closure-form wrapper makes of `block` in `w`. -/
def copyAddr (al : Allocator) (block : Nat) (w : World) : Nat := (Block_copy al block w).1

/-- The address of the record a closure-form wrapper allocates in `w`, after the copy. -/
def recordAddrB (al : Allocator) (block : Nat) (w : World) : Nat :=
  (user_alloc al (Block_copy al block w).2).1

/-- Modelled from the spec: the dispatcher runs the work item it holds at position `i`,
once, and forgets it (nothing happens when there is no such item). -/
def dispatcher_run (fuel : Nat) (i : Nat) (w : World) : Option World :=
  match w.pending[i]? with
  | none => some w
  | some (.fn _ _ context work) =>
    callFn fuel work context { w with pending := w.pending.eraseIdx i }
  | some (.blk _ _ body) =>
    some ({ w with pending := w.pending.eraseIdx i }.emit (.block_invoke body))

/-- Modelled from the spec: the dispatcher discards the work item at position `i`
without running it. -/
def dispatcher_drop (i : Nat) (w : World) : World :=
  { w with pending := w.pending.eraseIdx i }

/-- The four submission kinds; an entry point and its `_f` form are of the same kind. -/
inductive Axis where
  | async
  | barrier_async
  | sync
  | barrier_sync
  deriving DecidableEq, Repr

/-- Submission kind of a closure-form entry point. -/
def BlockEntry.axis : BlockEntry → Axis
  | .dispatch_async => .async
  | .dispatch_barrier_async => .barrier_async
  | .dispatch_sync => .sync
  | .dispatch_barrier_sync => .barrier_sync

/-- Submission kind of a function-pointer-form entry point. -/
def FuncEntry.axis : FuncEntry → Axis
  | .dispatch_async_f => .async
  | .dispatch_barrier_async_f => .barrier_async
  | .dispatch_sync_f => .sync
  | .dispatch_barrier_sync_f => .barrier_sync

/-- What user code and the dispatcher can observe: a submission of some kind to a
queue, a user function applied to an argument, a run of a closure body. -/
inductive Obs where
  | submitted (axis : Axis) (queue : Nat)
  | called (f : Nat) (arg : Nat)
  | ran (body : Nat)
  deriving DecidableEq, Repr

/-- The observable content of an event, if any. Allocation, free, closure copy and
release, `Release` and `Acquire` are not observable. -/
def observe : Event → Option Obs
  | .real_f name q _ _ => some (.submitted name.axis q)
  | .real_b name q _ => some (.submitted name.axis q)
  | .call f arg => some (.called f arg)
  | .block_invoke body => some (.ran body)
  | _ => none

/-- The bookkeeping events the wrappers add. -/
def isBookkeeping : Event → Bool
  | .user_alloc _ => true
  | .user_free _ => true
  | .release _ => true
  | .acquire _ => true
  | .block_copy _ _ => true
  | .block_release _ => true
  | _ => false

/-- The bookkeeping events of a function-pointer-form submission: allocation and free
of the record, `Release` and `Acquire`. -/
def isRecordBookkeeping : Event → Bool
  | .user_alloc _ => true
  | .user_free _ => true
  | .release _ => true
  | .acquire _ => true
  | _ => false

/-- One step of a program together with its dispatcher: a submission by user code
through a function-pointer or closure entry point, or the dispatcher running or
discarding the work item it holds at some position. -/
inductive Step where
  | submit_f (name : FuncEntry) (q context f : Nat)
  | submit_b (name : BlockEntry) (q block : Nat)
  | run (i : Nat)
  | drop (i : Nat)
  deriving DecidableEq, Repr

/-- A step with the interceptors installed: submissions go through the wrappers. -/
def Step.wrapped (al : Allocator) (fuel : Nat) : Step → World → Option World
  | .submit_f name q context f, w =>
    some (DISPATCH_INTERCEPT_F al name q context (.user f) w)
  | .submit_b name q block, w => some (DISPATCH_INTERCEPT_B al name q block w)
  | .run i, w => dispatcher_run fuel i w
  | .drop i, w => some (dispatcher_drop i w)

/-- A step without the interceptors: submissions go to the original entry points. -/
def Step.direct (fuel : Nat) : Step → World → Option World
  | .submit_f name q context f, w => some (REAL_f name q context (.user f) w)
  | .submit_b name q block, w => some (REAL_b name q block w)
  | .run i, w => dispatcher_run fuel i w
  | .drop i, w => some (dispatcher_drop i w)

/-- Run a list of steps, stopping at the first failure. -/
def runScript (step : Step → World → Option World) : List Step → World → Option World
  | [], w => some w
  | s :: ss, w =>
    match step s w with
    | some w1 => runScript step ss w1
    | none => none

/-- Correspondence between the work items held by the dispatcher with the wrappers
(first list) and without (second list): item by item, a user `(context, f)` corresponds
to the trampoline on a live record holding `(context, f)`, and a closure `b` to the
trampoline on a live record holding a live heap copy of `b`. The last list holds the
addresses of these records and copies: they lie below `hi` and are pairwise distinct. -/
inductive Pend (heap : Nat → Option Obj) (hi : Nat) :
    List Item → List Item → List Nat → Prop where
  | nil : Pend heap hi [] [] []
  | fn (r : Nat) (name : FuncEntry) (q c f : Nat) (lW lD : List Item) (used : List Nat)
      (hr : heap r = some (.context ⟨q, c, .user f⟩)) (hlt : r < hi) (hfr : r ∉ used)
      (rest : Pend heap hi lW lD used) :
      Pend heap hi (.fn name q r .dispatch_callback_wrap_acquire :: lW)
        (.fn name q c (.user f) :: lD) (r :: used)
  | blk (r h : Nat) (name : BlockEntry) (q b : Nat) (lW lD : List Item) (used : List Nat)
      (hh : heap h = some (.block b))
      (hr : heap r = some (.context ⟨q, h, .invoke_and_release_block⟩))
      (hlt : r < hi) (hlth : h < hi) (hne : r ≠ h) (hfr : r ∉ used) (hfh : h ∉ used)
      (rest : Pend heap hi lW lD used) :
      Pend heap hi (.fn name.f q r .dispatch_callback_wrap_acquire :: lW)
        (.blk name q b :: lD) (r :: h :: used)

/-- As long as the direct run (events `tD`, held items `pendD`) has called no closure
entry point, it holds no closure item, and the non-observable events `tW` of the wrapped
run are record bookkeeping only. -/
def OnlyRecords (tW tD : List Event) (pendD : List Item) : Prop :=
  (∀ n q b, Event.real_b n q b ∉ tD) →
    (∀ n q b, Item.blk n q b ∉ pendD)
    ∧ (∀ e ∈ tW, observe e = none → isRecordBookkeeping e = true)

/-- The simulation relation between a run with the wrappers (`wW`) and a run without
(`wD`) from the same world `w0`: the dispatcher holds corresponding items, the events
added so far have the same observable content, and the run without wrappers has added
no bookkeeping event. -/
def Sim (w0 wW wD : World) : Prop :=
  ∃ (used : List Nat) (tW tD : List Event),
    Pend wW.heap wW.next wW.pending wD.pending used
    ∧ wW.trace = w0.trace ++ tW ∧ wD.trace = w0.trace ++ tD
    ∧ tW.filterMap observe = tD.filterMap observe
    ∧ (∀ e ∈ tD, isBookkeeping e = false)
    ∧ OnlyRecords tW tD wD.pending

end Submit

namespace Once

theorem mem_emit (w : World) (e : Event) : (w.emit e).mem = w.mem := rfl

theorem dispatch_once_wait_done (a fuel : Nat) (w : World) :
    dispatch_once_wait a fuel 2 w = .returned w := by
  unfold dispatch_once_wait; simp

/-- A call that finds the word at UNSEEN wins the compare-exchange, runs the closure on
the world right after it, then releases and stores DONE. -/
theorem dispatch_once_unseen (fuel p : Nat) (f : Block) (w w2 : World)
    (h0 : w.mem p = 0)
    (hf : f ((atomic_store w p 1).emit (.invoke p)) = .returned w2) :
    dispatch_once fuel p f w = .returned (atomic_store (Release w2 p) p 2) := by
  simp [dispatch_once, atomic_load, atomic_compare_exchange_strong, h0, hf]

/-- A call that wins the compare-exchange and whose closure is still spinning has not
returned either. -/
theorem dispatch_once_unseen_spinning (fuel p : Nat) (f : Block) (w w2 : World)
    (h0 : w.mem p = 0)
    (hf : f ((atomic_store w p 1).emit (.invoke p)) = .spinning w2) :
    dispatch_once fuel p f w = .spinning w2 := by
  simp [dispatch_once, atomic_load, atomic_compare_exchange_strong, h0, hf]

/-- A call that finds the word at DONE only emits `Acquire`. -/
theorem dispatch_once_done (fuel p : Nat) (f : Block) (w : World) (h2 : w.mem p = 2) :
    dispatch_once fuel p f w = .returned (Acquire w p) := by
  simp [dispatch_once, atomic_load, h2, dispatch_once_observe, dispatch_once_wait_done]

/-- The world after `n` further observer calls: `n` `Acquire` events appended. -/
theorem callN_done (fuel p : Nat) (f : Block) (n : Nat) (w : World) (h2 : w.mem p = 2) :
    callN fuel p f n w
      = .returned { mem := w.mem, trace := w.trace ++ List.replicate n (.acquire p) } := by
  induction n generalizing w with
  | zero => simp [callN]
  | succ n ih =>
    have hA : (Acquire w p).mem p = 2 := h2
    rw [callN, dispatch_once_done fuel p f w h2, Outcome.andThen, ih _ hA]
    simp [Acquire, World.emit, List.replicate_succ]


/-- C1: sequential exactly-once. If the predicate word starts at UNSEEN and the closure
`f`, run from the world right after the winning compare-exchange, returns (in world `w2`)
without itself adding `invoke p` events, then `N ≥ 1` calls in sequence all return, the
word is DONE, `f` has been invoked exactly once (by the first call, whose effects are the
`Release` and the store), and every later call contributes only an `Acquire`. -/
theorem dispatch_once_sequential_exactly_once (fuel N p : Nat) (f : Block) (w w2 : World)
    (hN : 1 ≤ N) (h0 : w.mem p = 0)
    (hf : f ((atomic_store w p 1).emit (.invoke p)) = .returned w2)
    (hinv : invocations p w2.trace = invocations p w.trace + 1) :
    ∃ wN, callN fuel p f N w = .returned wN
      ∧ wN.mem p = 2
      ∧ invocations p wN.trace = invocations p w.trace + 1
      ∧ wN.mem = Function.update w2.mem p 2
      ∧ wN.trace = w2.trace ++ .release p :: List.replicate (N - 1) (.acquire p) := by
  obtain ⟨n, rfl⟩ : ∃ n, N = n + 1 := ⟨N - 1, by omega⟩
  have h2 : (atomic_store (Release w2 p) p 2).mem p = 2 := by simp [atomic_store]
  refine ⟨{ mem := (atomic_store (Release w2 p) p 2).mem,
             trace := (atomic_store (Release w2 p) p 2).trace
                        ++ List.replicate n (.acquire p) }, ?_, ?_, ?_, ?_, ?_⟩
  · rw [callN, dispatch_once_unseen fuel p f w w2 h0 hf, Outcome.andThen,
      callN_done fuel p f n _ h2]
  · simp [atomic_store]
  · simp [atomic_store, Release, World.emit, invocations, List.count_append,
      List.count_replicate] at hinv ⊢
    exact hinv
  · simp [atomic_store, Release, World.emit]
  · simp [atomic_store, Release, World.emit]

/-- Witness for C1: three calls with a closure that does nothing, fuel 0. -/
theorem dispatch_once_sequential_exactly_once_witness :
    ∃ wN, callN 0 3 (fun w => .returned w) 3 ⟨fun _ => 0, []⟩ = .returned wN
      ∧ wN.mem 3 = 2
      ∧ invocations 3 wN.trace = invocations 3 [] + 1
      ∧ wN.mem = Function.update (Function.update (fun _ => 0) 3 1) 3 2
      ∧ wN.trace = [.invoke 3] ++ .release 3 :: List.replicate (3 - 1) (.acquire 3) :=
  dispatch_once_sequential_exactly_once 0 3 3 (fun w => .returned w)
    ⟨fun _ => 0, []⟩ ⟨Function.update (fun _ => 0) 3 1, [.invoke 3]⟩
    (by decide) rfl rfl (by decide)

theorem runCalls_done (fuel p : Nat) (cs : List OnceCall) (w : World) (h2 : w.mem p = 2) :
    runCalls fuel p cs w
      = .returned { mem := w.mem, trace := w.trace ++ List.replicate cs.length (.acquire p) } := by
  induction cs generalizing w with
  | nil => simp [runCalls]
  | cons c cs ih =>
    have hA : (Acquire w p).mem p = 2 := h2
    have hc : c.run fuel p w = .returned (Acquire w p) := by
      cases c <;> simp [OnceCall.run, dispatch_once_f, dispatch_once_done _ _ _ _ h2]
    rw [runCalls, hc, Outcome.andThen, ih _ hA]
    simp [Acquire, World.emit, List.replicate_succ]

/-- C9: `dispatch_once_f(predicate, context, function)` is `dispatch_once(predicate, b)`
for the closure `b` whose body is `function(context)`, in every world (so the word and
the Release/Acquire events agree). Consequently, in a sequential mix of `dispatch_once`
and `dispatch_once_f` calls on a predicate that starts at UNSEEN, where the work item of
the first call returns (in `w2`) without itself adding `invoke p` events, every call
returns, exactly one work item (that of the first call) is run, exactly once, and all
later calls contribute only an `Acquire`. -/
theorem dispatch_once_f_delegates (fuel p : Nat) :
    (∀ (context : Nat) (function : WorkFunction) (w : World),
        dispatch_once_f fuel p context function w
          = dispatch_once fuel p (fun w1 => function context w1) w)
    ∧ (∀ (c : OnceCall) (cs : List OnceCall) (w w2 : World),
        w.mem p = 0 →
        c.work ((atomic_store w p 1).emit (.invoke p)) = .returned w2 →
        invocations p w2.trace = invocations p w.trace + 1 →
        ∃ wF, runCalls fuel p (c :: cs) w = .returned wF
          ∧ wF.mem p = 2
          ∧ invocations p wF.trace = invocations p w.trace + 1
          ∧ wF.mem = Function.update w2.mem p 2
          ∧ wF.trace = w2.trace ++ .release p :: List.replicate cs.length (.acquire p)) := by
  refine ⟨fun _ _ _ => rfl, ?_⟩
  intro c cs w w2 h0 hf hinv
  have h2 : (atomic_store (Release w2 p) p 2).mem p = 2 := by simp [atomic_store]
  have hc : c.run fuel p w = .returned (atomic_store (Release w2 p) p 2) := by
    cases c with
    | once b => exact dispatch_once_unseen fuel p b w w2 h0 hf
    | once_f ctx fn => exact dispatch_once_unseen fuel p (fun w3 => fn ctx w3) w w2 h0 hf
  refine ⟨{ mem := (atomic_store (Release w2 p) p 2).mem,
             trace := (atomic_store (Release w2 p) p 2).trace
                        ++ List.replicate cs.length (.acquire p) }, ?_, ?_, ?_, ?_, ?_⟩
  · rw [runCalls, hc, Outcome.andThen, runCalls_done fuel p cs _ h2]
  · simp [atomic_store]
  · simp [atomic_store, Release, World.emit, invocations, List.count_append,
      List.count_replicate] at hinv ⊢
    exact hinv
  · simp [atomic_store, Release, World.emit]
  · simp [atomic_store, Release, World.emit]

/-- Witness for C9: `dispatch_once_f` first, then `dispatch_once`, then `dispatch_once_f`,
on the predicate at address 3, with work that does nothing. -/
theorem dispatch_once_f_delegates_witness :
    ∃ wF, runCalls 0 3 (.once_f 5 (fun _ w => .returned w)
          :: [.once (fun w => .returned w), .once_f 6 (fun _ w => .returned w)])
          ⟨fun _ => 0, []⟩ = .returned wF
      ∧ wF.mem 3 = 2
      ∧ invocations 3 wF.trace = invocations 3 [] + 1
      ∧ wF.mem = Function.update (Function.update (fun _ => 0) 3 1) 3 2
      ∧ wF.trace = [.invoke 3] ++ .release 3 :: List.replicate
          [OnceCall.once (fun w => .returned w), .once_f 6 (fun _ w => .returned w)].length
          (.acquire 3) :=
  (dispatch_once_f_delegates 0 3).2 (.once_f 5 (fun _ w => .returned w))
    [.once (fun w => .returned w), .once_f 6 (fun _ w => .returned w)]
    ⟨fun _ => 0, []⟩ ⟨Function.update (fun _ => 0) 3 1, [.invoke 3]⟩
    rfl rfl (by decide)

theorem dispatch_once_wait_spin (a : Nat) (n : Nat) (w : World) (h1 : w.mem a = 1) :
    dispatch_once_wait a n 1 w
      = .spinning { mem := w.mem, trace := w.trace ++ List.replicate n .yield } := by
  induction n generalizing w with
  | zero => simp [dispatch_once_wait]
  | succ n ih =>
    have hy : (internal_sched_yield w).mem a = 1 := h1
    rw [dispatch_once_wait]
    simp only [atomic_load, hy]
    rw [ih _ hy]
    simp [internal_sched_yield, World.emit, List.replicate_succ]

/-- A call that finds the word at IN_PROGRESS, with nobody else to finish the
initialisation, is still in its wait loop after `n` iterations, for every `n`. -/
theorem dispatch_once_in_progress (n p : Nat) (g : Block) (w : World) (h1 : w.mem p = 1) :
    dispatch_once n p g w
      = .spinning { mem := w.mem, trace := w.trace ++ List.replicate n .yield } := by
  simp [dispatch_once, atomic_load, h1, dispatch_once_observe, dispatch_once_wait_spin _ _ _ h1]

/-- C10: recursive once, on a predicate `p` that starts at UNSEEN. A closure on `p`
that calls `dispatch_once(q, g)` on a different predicate `q`, also UNSEEN, makes both
calls return, runs each closure exactly once and leaves both words DONE (given `g`
returns, in `w2`, without adding `invoke` events for `p` or `q`). A closure on `p` that
calls `dispatch_once` on the same `p` makes the inner call see IN_PROGRESS: for every
number `n` of yield-and-reload iterations the call has not returned, the word is still
1, the inner closure has not been invoked, and the trace holds the single `invoke p`
followed by `n` yields. -/
theorem dispatch_once_recursive (fuel m n p : Nat) (w : World) (hp : w.mem p = 0) :
    (∀ (q : Nat) (g : Block) (w2 : World), p ≠ q → w.mem q = 0 →
        g ((atomic_store ((atomic_store w p 1).emit (.invoke p)) q 1).emit (.invoke q))
          = .returned w2 →
        invocations p w2.trace = invocations p w.trace + 1 →
        invocations q w2.trace = invocations q w.trace + 1 →
        ∃ wF, dispatch_once fuel p (fun w1 => dispatch_once fuel q g w1) w = .returned wF
          ∧ wF.mem p = 2 ∧ wF.mem q = 2
          ∧ invocations p wF.trace = invocations p w.trace + 1
          ∧ invocations q wF.trace = invocations q w.trace + 1
          ∧ wF.trace = w2.trace ++ [.release q, .release p])
    ∧ (∀ h : Block, ∃ wS,
        dispatch_once m p (fun w1 => dispatch_once n p h w1) w = .spinning wS
        ∧ wS.mem p = 1
        ∧ invocations p wS.trace = invocations p w.trace + 1
        ∧ wS.trace = w.trace ++ .invoke p :: List.replicate n .yield) := by
  constructor
  · intro q g w2 hpq hq hg hinvp hinvq
    have hq1 : ((atomic_store w p 1).emit (.invoke p)).mem q = 0 := by
      simp [atomic_store, World.emit, Function.update, hpq.symm, hq]
    have hin := dispatch_once_unseen fuel q g _ w2 hq1 hg
    have hout := dispatch_once_unseen fuel p (fun w1 => dispatch_once fuel q g w1) w _ hp hin
    refine ⟨_, hout, ?_, ?_, ?_, ?_, ?_⟩
    · simp [atomic_store]
    · simp [atomic_store, Release, World.emit, Function.update, hpq.symm]
    · simp [atomic_store, Release, World.emit, invocations, List.count_append] at hinvp ⊢
      exact hinvp
    · simp [atomic_store, Release, World.emit, invocations, List.count_append] at hinvq ⊢
      exact hinvq
    · simp [atomic_store, Release, World.emit]
  · intro h
    have h1 : ((atomic_store w p 1).emit (.invoke p)).mem p = 1 := by
      simp [atomic_store, World.emit]
    have hin := dispatch_once_in_progress n p h _ h1
    refine ⟨{ mem := ((atomic_store w p 1).emit (.invoke p)).mem,
               trace := ((atomic_store w p 1).emit (.invoke p)).trace
                          ++ List.replicate n .yield }, ?_, ?_, ?_, ?_⟩
    rotate_left
    · exact h1
    · show invocations p (((atomic_store w p 1).emit (.invoke p)).trace
          ++ List.replicate n .yield) = _
      simp [atomic_store, World.emit, invocations, List.count_append, List.count_replicate]
    · show ((atomic_store w p 1).emit (.invoke p)).trace ++ List.replicate n .yield = _
      simp [atomic_store, World.emit]
    · exact dispatch_once_unseen_spinning m p (fun w1 => dispatch_once n p h w1) w _ hp hin

/-- Witness for C10: predicates at addresses 3 and 4, an inner closure that does nothing. -/
theorem dispatch_once_recursive_witness :
    (∃ wF, dispatch_once 0 3 (fun w1 => dispatch_once 0 4 (fun w => .returned w) w1)
          ⟨fun _ => 0, []⟩ = .returned wF
        ∧ wF.mem 3 = 2 ∧ wF.mem 4 = 2
        ∧ invocations 3 wF.trace = invocations 3 [] + 1
        ∧ invocations 4 wF.trace = invocations 4 [] + 1
        ∧ wF.trace = [.invoke 3, .invoke 4] ++ [.release 4, .release 3])
    ∧ (∀ h : Block, ∃ wS,
        dispatch_once 2 3 (fun w1 => dispatch_once 5 3 h w1) ⟨fun _ => 0, []⟩ = .spinning wS
        ∧ wS.mem 3 = 1
        ∧ invocations 3 wS.trace = invocations 3 [] + 1
        ∧ wS.trace = [] ++ .invoke 3 :: List.replicate 5 .yield) :=
  ⟨(dispatch_once_recursive 0 2 5 3 ⟨fun _ => 0, []⟩ rfl).1 4 (fun w => .returned w)
      ⟨Function.update (Function.update (fun _ => 0) 3 1) 4 1, [.invoke 3, .invoke 4]⟩
      (by decide) rfl rfl (by decide) (by decide),
   (dispatch_once_recursive 0 2 5 3 ⟨fun _ => 0, []⟩ rfl).2⟩

end Once

namespace Conc

theorem milestones_append (l1 l2 : List (Nat × Ev)) :
    milestones (l1 ++ l2) = milestones l1 ++ milestones l2 := by
  simp [milestones]

theorem goto_word (s : State) (t : Nat) (pc : Pc) (es : List Ev) :
    (s.goto t pc es).word = s.word := rfl

theorem goto_pc_self (s : State) (t : Nat) (pc : Pc) (es : List Ev) :
    (s.goto t pc es).pc t = pc := by simp [State.goto]

theorem goto_pc_other (s : State) (t u : Nat) (pc : Pc) (es : List Ev) (h : u ≠ t) :
    (s.goto t pc es).pc u = s.pc u := by simp [State.goto, Function.update, h]

theorem goto_trace (s : State) (t : Nat) (pc : Pc) (es : List Ev) :
    (s.goto t pc es).trace = s.trace ++ es.map (fun e => (t, e)) := rfl

theorem milestones_goto (s : State) (t : Nat) (pc : Pc) (es : List Ev)
    (hes : ∀ e ∈ es, isMilestone e = false) :
    milestones (s.goto t pc es).trace = milestones s.trace := by
  rw [goto_trace, milestones_append]
  have : milestones (es.map (fun e => (t, e))) = [] := by
    simp only [milestones, List.filter_eq_nil_iff, List.mem_map]
    rintro x ⟨e, he, rfl⟩
    simp [hes e he]
  simp [this]

theorem waitOk_zero_one (pc : Pc) (h : waitOk 0 pc) : waitOk 1 pc := by
  cases pc <;> simp_all [waitOk]
  omega

theorem waitOk_one_two (pc : Pc) (h : waitOk 1 pc) : waitOk 2 pc ∧ pc ≠ .ret := by
  cases pc <;> simp_all [waitOk] <;> omega

theorem Inv_init (a : Nat) : Inv a init := by
  left
  simp [init, milestones, waitOk]

theorem Inv_word_le (a : Nat) (s : State) (h : Inv a s) : s.word ≤ 2 := by
  rcases h with ⟨h, -⟩ | ⟨w, k, -, h, -⟩ | ⟨w, acqs, h, -⟩ <;> omega

/-- A thread whose program counter is on the wait path satisfies `waitOk`. -/
theorem Inv_waitOk (a : Nat) (s : State) (t : Nat) (h : Inv a s)
    (hw : onWaitPath (s.pc t) = true) : waitOk s.word (s.pc t) := by
  rcases h with ⟨h0, -, h⟩ | ⟨w, k, hk, h1, -, hpw, h⟩ | ⟨w, acqs, h2, -, hpw, -, -, h⟩
  · rw [h0]; exact h t
  · by_cases htw : t = w
    · subst htw
      rw [hpw] at hw
      have : k = 0 ∨ k = 1 ∨ k = 2 ∨ k = 3 := by omega
      rcases this with rfl | rfl | rfl | rfl <;> simp [initPc, onWaitPath] at hw
    · rw [h1]; exact h t htw
  · by_cases htw : t = w
    · subst htw; rw [hpw, h2]; simp [waitOk]
    · rw [h2]; exact (h t htw).1

/-- A wait-path move of a thread that has not returned, to a program counter other
than `ret`, with no milestone event, preserves the invariant. -/
theorem Inv_goto_wait (a : Nat) (s : State) (t : Nat) (pc : Pc) (es : List Ev)
    (h : Inv a s) (hw : onWaitPath (s.pc t) = true) (hnr : s.pc t ≠ .ret)
    (hok : waitOk s.word pc) (hpc : pc ≠ .ret)
    (hes : ∀ e ∈ es, isMilestone e = false) : Inv a (s.goto t pc es) := by
  rcases h with ⟨h0, hm, h⟩ | ⟨w, k, hk, h1, hm, hpw, h⟩ | ⟨w, acqs, h2, hm, hpw, hwa, hnd, h⟩
  · left
    refine ⟨h0, by rw [milestones_goto _ _ _ _ hes, hm], fun u => ?_⟩
    by_cases hut : u = t
    · subst hut; rw [goto_pc_self]; rw [h0] at hok; exact hok
    · rw [goto_pc_other _ _ _ _ _ hut]; exact h u
  · right; left
    have htw : t ≠ w := by
      rintro rfl
      rw [hpw] at hw
      have : k = 0 ∨ k = 1 ∨ k = 2 ∨ k = 3 := by omega
      rcases this with rfl | rfl | rfl | rfl <;> simp [initPc, onWaitPath] at hw
    refine ⟨w, k, hk, h1, by rw [milestones_goto _ _ _ _ hes, hm], ?_, fun u huw => ?_⟩
    · rw [goto_pc_other _ _ _ _ _ (Ne.symm htw)]; exact hpw
    · by_cases hut : u = t
      · subst hut; rw [goto_pc_self]; rw [h1] at hok; exact hok
      · rw [goto_pc_other _ _ _ _ _ hut]; exact h u huw
  · right; right
    have htw : t ≠ w := by
      rintro rfl
      exact hnr hpw
    refine ⟨w, acqs, h2, by rw [milestones_goto _ _ _ _ hes, hm], ?_, hwa, hnd, fun u huw => ?_⟩
    · rw [goto_pc_other _ _ _ _ _ (Ne.symm htw)]; exact hpw
    · by_cases hut : u = t
      · subst hut
        rw [goto_pc_self]
        rw [h2] at hok
        refine ⟨hok, ?_⟩
        constructor
        · intro hc; exact absurd hc hpc
        · intro hc; exact absurd ((h u huw).2.mpr hc) hnr
      · rw [goto_pc_other _ _ _ _ _ hut]; exact h u huw

/-- The winning compare-exchange: from UNSEEN to IN_PROGRESS with initialiser `t`. -/
theorem Inv_cas_ok (a : Nat) (s : State) (t : Nat) (h : Inv a s) (h0 : s.word = 0) :
    Inv a { s.goto t .call_block [.cas_ok] with word := 1 } := by
  rcases h with ⟨-, hm, h⟩ | ⟨w, k, -, h1, -⟩ | ⟨w, acqs, h2, -⟩
  · right; left
    refine ⟨t, 0, by omega, rfl, ?_, ?_, fun u hut => ?_⟩
    · show milestones (s.goto t .call_block [.cas_ok]).trace = _
      rw [goto_trace, milestones_append, hm]
      simp [milestones, isMilestone, winnerEvents]
    · show (s.goto t .call_block [.cas_ok]).pc t = _
      rw [goto_pc_self]; rfl
    · show waitOk 1 ((s.goto t .call_block [.cas_ok]).pc u)
      rw [goto_pc_other _ _ _ _ _ hut]
      exact waitOk_zero_one _ (h u)
  · omega
  · omega

/-- A step of the initialiser between the compare-exchange and the store. -/
theorem Inv_init_step (a : Nat) (s : State) (t : Nat) (k : Nat) (e : Ev) (h : Inv a s)
    (hk : k < 3) (hpc : s.pc t = initPc k)
    (he : (winnerEvents a t).take (k + 2) = (winnerEvents a t).take (k + 1) ++ [(t, e)]) :
    Inv a (s.goto t (initPc (k + 1)) [e]) := by
  have hk3 : k = 0 ∨ k = 1 ∨ k = 2 := by omega
  rcases h with ⟨-, -, h⟩ | ⟨w, j, hj, h1, hm, hpw, h⟩ | ⟨w, acqs, -, -, hpw, -, -, h⟩
  · have := h t
    rw [hpc] at this
    rcases hk3 with rfl | rfl | rfl <;> simp [initPc, waitOk] at this
  · have htw : t = w := by
      by_contra hne
      have := h t hne
      rw [hpc] at this
      rcases hk3 with rfl | rfl | rfl <;> simp [initPc, waitOk] at this
    subst htw
    have hjk : j = k := by
      rw [hpc] at hpw
      have hj4 : j = 0 ∨ j = 1 ∨ j = 2 ∨ j = 3 := by omega
      rcases hk3 with rfl | rfl | rfl <;> rcases hj4 with rfl | rfl | rfl | rfl <;>
        simp [initPc] at hpw ⊢
    subst hjk
    right; left
    refine ⟨t, j + 1, by omega, h1, ?_, goto_pc_self _ _ _ _, fun u hut => ?_⟩
    · rw [goto_trace, milestones_append, hm, he]
      have hme : isMilestone e = true := by
        rcases hk3 with rfl | rfl | rfl <;> simp [winnerEvents] at he <;> subst he <;> rfl
      simp [milestones, hme]
    · rw [goto_pc_other _ _ _ _ _ hut]; exact h u hut
  · by_cases htw : t = w
    · subst htw
      rw [hpc] at hpw
      rcases hk3 with rfl | rfl | rfl <;> simp [initPc] at hpw
    · have := (h t htw).1
      rw [hpc] at this
      rcases hk3 with rfl | rfl | rfl <;> simp [initPc, waitOk] at this

/-- The store of DONE by the initialiser. -/
theorem Inv_store (a : Nat) (s : State) (t : Nat) (h : Inv a s) (hpc : s.pc t = .store) :
    Inv a { s.goto t .ret [.store 2] with word := 2 } := by
  rcases h with ⟨-, -, h⟩ | ⟨w, j, hj, h1, hm, hpw, h⟩ | ⟨w, acqs, -, -, hpw, -, -, h⟩
  · have := h t
    rw [hpc] at this
    simp [waitOk] at this
  · have htw : t = w := by
      by_contra hne
      have := h t hne
      rw [hpc] at this
      simp [waitOk] at this
    subst htw
    have hj3 : j = 3 := by
      rw [hpc] at hpw
      have hj4 : j = 0 ∨ j = 1 ∨ j = 2 ∨ j = 3 := by omega
      rcases hj4 with rfl | rfl | rfl | rfl <;> simp [initPc] at hpw ⊢
    subst hj3
    right; right
    refine ⟨t, [], rfl, ?_, ?_, by simp, by simp, fun u hut => ?_⟩
    · show milestones (s.goto t .ret [.store 2]).trace = _
      rw [goto_trace, milestones_append, hm]
      simp [milestones, isMilestone, winnerEvents]
    · show (s.goto t .ret [.store 2]).pc t = _
      rw [goto_pc_self]
    · show waitOk 2 ((s.goto t .ret [.store 2]).pc u) ∧ ((s.goto t .ret [.store 2]).pc u = .ret ↔ u ∈ [])
      rw [goto_pc_other _ _ _ _ _ hut]
      have := waitOk_one_two _ (h u hut)
      exact ⟨this.1, by simpa using this.2⟩
  · by_cases htw : t = w
    · subst htw
      rw [hpc] at hpw
      simp at hpw
    · have := (h t htw).1
      rw [hpc] at this
      simp [waitOk] at this

/-- The `Acquire` of an observer, which then returns. -/
theorem Inv_acquire (a : Nat) (s : State) (t : Nat) (h : Inv a s) (hpc : s.pc t = .acquire) :
    Inv a (s.goto t .ret [.acquire a]) := by
  rcases h with ⟨-, -, h⟩ | ⟨w, j, hj, h1, hm, hpw, h⟩ | ⟨w, acqs, h2, hm, hpw, hwa, hnd, h⟩
  · have := h t
    rw [hpc] at this
    simp [waitOk] at this
  · by_cases htw : t = w
    · subst htw
      rw [hpc] at hpw
      have hj4 : j = 0 ∨ j = 1 ∨ j = 2 ∨ j = 3 := by omega
      rcases hj4 with rfl | rfl | rfl | rfl <;> simp [initPc] at hpw
    · have := h t htw
      rw [hpc] at this
      simp [waitOk] at this
  · have htw : t ≠ w := by
      rintro rfl
      rw [hpc] at hpw
      simp at hpw
    have hta : t ∉ acqs := by
      intro hc
      have := (h t htw).2.mpr hc
      rw [hpc] at this
      simp at this
    right; right
    refine ⟨w, acqs ++ [t], h2, ?_, ?_, ?_, ?_, fun u huw => ?_⟩
    · rw [goto_trace, milestones_append, hm]
      simp [milestones, isMilestone]
    · rw [goto_pc_other _ _ _ _ _ (Ne.symm htw)]; exact hpw
    · simp [hwa, Ne.symm htw]
    · rw [List.nodup_append]
      refine ⟨hnd, by simp, ?_⟩
      intro x hx1 hx2
      simp at hx2
      subst hx2
      exact hta hx1
    · by_cases hut : u = t
      · subst hut
        rw [goto_pc_self]
        simp [waitOk]
      · rw [goto_pc_other _ _ _ _ _ hut]
        refine ⟨(h u huw).1, ?_⟩
        rw [(h u huw).2]
        simp [hut]

/-- Every step of every thread preserves the invariant. -/
theorem Inv_step (a : Nat) (s : State) (t : Nat) (h : Inv a s) : Inv a (step a t s) := by
  have hle := Inv_word_le a s h
  unfold step
  cases hpc : s.pc t with
  | entry =>
    exact Inv_goto_wait a s t _ _ h (by simp [hpc, onWaitPath]) (by simp [hpc])
      (by simp [waitOk]) (by simp) (by simp [isMilestone])
  | loaded v =>
    have hv := Inv_waitOk a s t h (by simp [hpc, onWaitPath])
    rw [hpc] at hv
    simp only [waitOk] at hv
    by_cases hv0 : v = 0
    · subst hv0
      by_cases hw0 : s.word = 0
      · simp only [hw0, if_true]
        exact Inv_cas_ok a s t h hw0
      · simp only [hw0, if_true, if_false]
        exact Inv_goto_wait a s t _ _ h (by simp [hpc, onWaitPath]) (by simp [hpc])
          (by simp [waitOk]; omega) (by simp) (by simp [isMilestone])
    · simp only [hv0, if_false]
      exact Inv_goto_wait a s t _ _ h (by simp [hpc, onWaitPath]) (by simp [hpc])
        (by simp [waitOk]; omega) (by simp) (by simp)
  | call_block => exact Inv_init_step a s t 0 .invoke h (by omega) hpc rfl
  | in_block => exact Inv_init_step a s t 1 .block_ret h (by omega) hpc rfl
  | release => exact Inv_init_step a s t 2 (.release a) h (by omega) hpc rfl
  | store => exact Inv_store a s t h hpc
  | test v =>
    have hv := Inv_waitOk a s t h (by simp [hpc, onWaitPath])
    rw [hpc] at hv
    simp only [waitOk] at hv
    by_cases hv2 : v = 2
    · subst hv2
      simp only [ne_eq, not_true_eq_false, if_false]
      exact Inv_goto_wait a s t _ _ h (by simp [hpc, onWaitPath]) (by simp [hpc])
        (by simp [waitOk]; omega) (by simp) (by simp)
    · simp only [ne_eq, hv2, not_false_eq_true, if_true]
      exact Inv_goto_wait a s t _ _ h (by simp [hpc, onWaitPath]) (by simp [hpc])
        (by simp [waitOk]; omega) (by simp) (by simp)
  | yield =>
    have hv := Inv_waitOk a s t h (by simp [hpc, onWaitPath])
    rw [hpc] at hv
    exact Inv_goto_wait a s t _ _ h (by simp [hpc, onWaitPath]) (by simp [hpc])
      (by simpa [waitOk] using hv) (by simp) (by simp [isMilestone])
  | reload =>
    have hv := Inv_waitOk a s t h (by simp [hpc, onWaitPath])
    rw [hpc] at hv
    simp only [waitOk] at hv
    exact Inv_goto_wait a s t _ _ h (by simp [hpc, onWaitPath]) (by simp [hpc])
      (by simp [waitOk]; omega) (by simp) (by simp [isMilestone])
  | acquire => exact Inv_acquire a s t h hpc
  | ret => exact h

theorem run_snoc (a : Nat) (sched : List Nat) (t : Nat) (s : State) :
    run a (sched ++ [t]) s = step a t (run a sched s) := by
  simp [run, List.foldl_append]

theorem run_append (a : Nat) (s1 s2 : List Nat) (s : State) :
    run a (s1 ++ s2) s = run a s2 (run a s1 s) := by
  simp [run, List.foldl_append]

/-- The invariant holds in every state reachable from `init`. -/
theorem Inv_run (a : Nat) (sched : List Nat) : Inv a (run a sched init) := by
  induction sched using List.reverseRecOn with
  | nil => exact Inv_init a
  | append_singleton l t ih => rw [run_snoc]; exact Inv_step a _ t ih

theorem waitOk_onWaitPath (n : Nat) (pc : Pc) (h : waitOk n pc) : onWaitPath pc = true := by
  cases pc <;> simp_all [waitOk, onWaitPath]

theorem mem_milestones (x : Nat × Ev) (tr : List (Nat × Ev)) :
    x ∈ milestones tr ↔ x ∈ tr ∧ isMilestone x.2 = true := by
  simp [milestones]

theorem count_milestones (x : Nat × Ev) (tr : List (Nat × Ev)) (hx : isMilestone x.2 = true) :
    (milestones tr).count x = tr.count x := by
  simp [milestones, List.count_filter, hx]

/-- If `x` does not occur in `m1`, then in `l1 ++ x :: l2 = m1 ++ m2` all of `m1` lies
before that occurrence of `x`. -/
theorem subset_of_append_cons_eq {α : Type} (l1 l2 m1 m2 : List α) (x : α)
    (h : l1 ++ x :: l2 = m1 ++ m2) (hx : x ∉ m1) : ∀ y ∈ m1, y ∈ l1 := by
  rw [List.append_eq_append_iff] at h
  rcases h with ⟨c, hc, hc2⟩ | ⟨c, hc, -⟩
  · cases c with
    | nil => intro y hy; simpa [hc] using hy
    | cons z c =>
      simp at hc2
      exact absurd (by rw [hc, hc2.1]; simp) hx
  · intro y hy; rw [hc]; simp [hy]

/-- Trace-level summary of the invariant: the milestone events are the first `k`
events of one initialiser `w`, then the `Acquire`s of distinct observers, which only
start once the initialiser has stored DONE. -/
theorem Inv_summary (a : Nat) (s : State) (h : Inv a s) :
    ∃ (w k : Nat) (acqs : List Nat), k ≤ 5
      ∧ milestones s.trace
          = (winnerEvents a w).take k ++ acqs.map (fun t => (t, Ev.acquire a))
      ∧ acqs.Nodup ∧ w ∉ acqs ∧ (k < 5 → acqs = [])
      ∧ (s.word = 0 ↔ k = 0) ∧ (s.word = 2 ↔ k = 5)
      ∧ (∀ t, t ≠ w ∨ k = 0 → onWaitPath (s.pc t) = true ∧ (s.pc t = .ret ↔ t ∈ acqs))
      ∧ (0 < k → (s.pc w = .ret ↔ k = 5) ∧ (onWaitPath (s.pc w) = true ↔ k = 5)) := by
  rcases h with ⟨h0, hm, h⟩ | ⟨w, k, hk, h1, hm, hpw, h⟩ | ⟨w, acqs, h2, hm, hpw, hwa, hnd, h⟩
  · refine ⟨0, 0, [], by omega, by simp [hm], by simp, by simp, by simp, by simp [h0],
      by simp [h0], fun t _ => ⟨waitOk_onWaitPath _ _ (h t), ?_⟩, by simp⟩
    have := h t
    constructor
    · intro hc; rw [hc] at this; simp [waitOk] at this
    · simp
  · refine ⟨w, k + 1, [], by omega, by simp [hm], by simp, by simp, by simp, by simp [h1],
      by simp [h1]; omega, fun t ht => ?_, fun _ => ?_⟩
    · have htw : t ≠ w := by rcases ht with ht | ht; exact ht; omega
      have := h t htw
      refine ⟨waitOk_onWaitPath _ _ this, ?_⟩
      constructor
      · intro hc; rw [hc] at this; simp [waitOk] at this
      · simp
    · rw [hpw]
      have hk4 : k = 0 ∨ k = 1 ∨ k = 2 ∨ k = 3 := by omega
      rcases hk4 with rfl | rfl | rfl | rfl <;> simp [initPc, onWaitPath]
  · refine ⟨w, 5, acqs, by omega, by simp [hm, winnerEvents], hnd, hwa, by simp, by simp [h2],
      by simp [h2], fun t ht => ?_, fun _ => ?_⟩
    · have htw : t ≠ w := by rcases ht with ht | ht; exact ht; omega
      exact ⟨waitOk_onWaitPath _ _ (h t htw).1, (h t htw).2⟩
    · simp [hpw, onWaitPath]

theorem countP_milestones (p : Nat × Ev → Bool) (tr : List (Nat × Ev))
    (hp : ∀ x, p x = true → isMilestone x.2 = true) :
    tr.countP p = (milestones tr).countP p := by
  rw [milestones, List.countP_filter]
  congr 1
  funext x
  cases hx : p x
  · simp
  · simp [hp x hx]

theorem countP_acquires (p : Nat × Ev → Bool) (a : Nat) (acqs : List Nat)
    (hp : ∀ t, p (t, Ev.acquire a) = false) :
    (acqs.map (fun t => (t, Ev.acquire a))).countP p = 0 := by
  rw [List.countP_eq_zero]
  intro x hx
  simp only [List.mem_map] at hx
  obtain ⟨t, -, rfl⟩ := hx
  simp [hp t]

theorem mem_take_winnerEvents (a w k : Nat) (x : Nat × Ev)
    (hx : x ∈ (winnerEvents a w).take k) :
    x.1 = w ∧ isWaitEvent x.2 = false ∧ (0 < k) ∧ (w, Ev.cas_ok) ∈ (winnerEvents a w).take k := by
  have hk : k = 0 ∨ k = 1 ∨ k = 2 ∨ k = 3 ∨ k = 4 ∨ 5 ≤ k := by omega
  rcases hk with rfl | rfl | rfl | rfl | rfl | hk
  · simp at hx
  · simp [winnerEvents] at hx ⊢; subst hx; simp [isWaitEvent]
  · simp [winnerEvents] at hx ⊢; rcases hx with rfl | rfl <;> simp [isWaitEvent]
  · simp [winnerEvents] at hx ⊢; rcases hx with rfl | rfl | rfl <;> simp [isWaitEvent]
  · simp [winnerEvents] at hx ⊢; rcases hx with rfl | rfl | rfl | rfl <;> simp [isWaitEvent]
  · rw [List.take_of_length_le (by simpa [winnerEvents] using hk)] at hx ⊢
    simp [winnerEvents] at hx ⊢
    refine ⟨?_, ?_, by omega⟩ <;> rcases hx with rfl | rfl | rfl | rfl | rfl <;> simp [isWaitEvent]

/-- C2: exactly-once under interleaving. In every state reachable by any schedule of any
number of threads from the initial state (word UNSEEN, every thread at the entry of
`dispatch_once`): at most one successful compare-exchange has happened, the closure has
been invoked at most once in total, two threads that both performed the successful
compare-exchange are the same thread, and every thread that has not performed it is on
the wait path and has emitted wait-path events only (loads, a failed compare-exchange,
yields, `Acquire`). -/
theorem dispatch_once_single_initializer (a : Nat) (sched : List Nat) :
    (run a sched init).trace.countP (fun x => decide (x.2 = Ev.cas_ok)) ≤ 1
    ∧ (run a sched init).trace.countP (fun x => decide (x.2 = Ev.invoke)) ≤ 1
    ∧ (∀ t1 t2, (t1, Ev.cas_ok) ∈ (run a sched init).trace →
        (t2, Ev.cas_ok) ∈ (run a sched init).trace → t1 = t2)
    ∧ (∀ t, (t, Ev.cas_ok) ∉ (run a sched init).trace →
        onWaitPath ((run a sched init).pc t) = true
        ∧ ∀ e, (t, e) ∈ (run a sched init).trace → isWaitEvent e = true) := by
  obtain ⟨w, k, acqs, hk, hm, -, -, -, -, -, hpc, -⟩ :=
    Inv_summary a _ (Inv_run a sched)
  have hk6 : k = 0 ∨ k = 1 ∨ k = 2 ∨ k = 3 ∨ k = 4 ∨ k = 5 := by omega
  have hcas : ∀ t, (t, Ev.cas_ok) ∈ (run a sched init).trace → t = w ∧ 0 < k := by
    intro t ht
    have : (t, Ev.cas_ok) ∈ milestones (run a sched init).trace :=
      (mem_milestones _ _).2 ⟨ht, rfl⟩
    rw [hm, List.mem_append] at this
    rcases this with h | h
    · have := mem_take_winnerEvents a w k _ h
      exact ⟨this.1, this.2.2.1⟩
    · simp at h
  refine ⟨?_, ?_, ?_, ?_⟩
  · rw [countP_milestones _ _ (by rintro ⟨t, e⟩ h; simp at h; subst h; rfl), hm,
      List.countP_append, countP_acquires _ _ _ (by simp)]
    rcases hk6 with rfl | rfl | rfl | rfl | rfl | rfl <;> simp [winnerEvents, List.countP_cons]
  · rw [countP_milestones _ _ (by rintro ⟨t, e⟩ h; simp at h; subst h; rfl), hm,
      List.countP_append, countP_acquires _ _ _ (by simp)]
    rcases hk6 with rfl | rfl | rfl | rfl | rfl | rfl <;> simp [winnerEvents, List.countP_cons]
  · intro t1 t2 h1 h2
    rw [(hcas t1 h1).1, (hcas t2 h2).1]
  · intro t ht
    have htw : t ≠ w ∨ k = 0 := by
      by_cases hk0 : k = 0
      · exact Or.inr hk0
      · left
        rintro rfl
        apply ht
        have : (t, Ev.cas_ok) ∈ milestones (run a sched init).trace := by
          rw [hm]
          rcases hk6 with rfl | rfl | rfl | rfl | rfl | rfl <;> simp [winnerEvents] at hk0 ⊢
        exact ((mem_milestones _ _).1 this).1
    refine ⟨(hpc t htw).1, fun e he => ?_⟩
    by_contra hne
    have hms : isMilestone e = true := by
      cases e <;> simp_all [isWaitEvent, isMilestone]
    have : (t, e) ∈ milestones (run a sched init).trace := (mem_milestones _ _).2 ⟨he, hms⟩
    rw [hm, List.mem_append] at this
    rcases this with h | h
    · have hw5 := mem_take_winnerEvents a w k _ h
      have hc : (w, Ev.cas_ok) ∈ milestones (run a sched init).trace := by
        rw [hm]; exact List.mem_append_left _ hw5.2.2.2
      simp only at hw5
      rw [hw5.1] at ht
      exact ht ((mem_milestones _ _).1 hc).1
    · simp only [List.mem_map, Prod.mk.injEq] at h
      obtain ⟨u, -, -, rfl⟩ := h
      simp [isWaitEvent] at hne

/-- What one step does to the word: nothing (and then it records neither a successful
compare-exchange nor a store), or the compare-exchange 0 → 1, or the store 1 → 2. -/
theorem step_word_cases (a : Nat) (s : State) (t : Nat) (h : Inv a s) :
    ((step a t s).word = s.word
      ∧ ∃ es : List Ev, (step a t s).trace = s.trace ++ es.map (fun e => (t, e))
          ∧ ∀ e ∈ es, e ≠ Ev.cas_ok ∧ ∀ v, e ≠ Ev.store v)
    ∨ (s.word = 0 ∧ (step a t s).word = 1 ∧ (step a t s).trace = s.trace ++ [(t, Ev.cas_ok)])
    ∨ (s.word = 1 ∧ (step a t s).word = 2
        ∧ (step a t s).trace = s.trace ++ [(t, Ev.store 2)]) := by
  have hle := Inv_word_le a s h
  obtain ⟨w, k, acqs, hk, -, -, -, -, h0, h2, hpc, hpw⟩ := Inv_summary a s h
  unfold step
  cases hpct : s.pc t with
  | loaded v =>
    by_cases hv0 : v = 0
    · subst hv0
      by_cases hw0 : s.word = 0
      · right; left
        simp [hw0, State.goto]
      · left
        simp only [hw0, if_true, if_false]
        exact ⟨rfl, [.cas_fail s.word], rfl, by simp⟩
    · left
      simp only [hv0, if_false]
      exact ⟨rfl, [], rfl, by simp⟩
  | store =>
    right; right
    have hw1 : s.word = 1 := by
      have htw : ¬ (t ≠ w ∨ k = 0) := by
        intro hc
        have := (hpc t hc).1
        rw [hpct] at this
        simp [onWaitPath] at this
      have ht : t = w := by
        by_contra hne; exact htw (Or.inl hne)
      have hk0 : 0 < k := by
        by_contra hne; exact htw (Or.inr (by omega))
      subst ht
      have := (hpw hk0).1
      rw [hpct] at this
      simp at this
      have hne0 : s.word ≠ 0 := fun hc => by have := h0.1 hc; omega
      have hne2 : s.word ≠ 2 := fun hc => this (h2.1 hc)
      omega
    exact ⟨hw1, rfl, rfl⟩
  | test v =>
    left
    by_cases hv2 : v = 2
    · simp only [hv2, ne_eq, not_true_eq_false, if_false]
      exact ⟨rfl, [], rfl, by simp⟩
    · simp only [ne_eq, hv2, not_false_eq_true, if_true]
      exact ⟨rfl, [], rfl, by simp⟩
  | entry => left; exact ⟨rfl, [.load s.word], rfl, by simp⟩
  | call_block => left; exact ⟨rfl, [.invoke], rfl, by simp⟩
  | in_block => left; exact ⟨rfl, [.block_ret], rfl, by simp⟩
  | release => left; exact ⟨rfl, [.release a], rfl, by simp⟩
  | yield => left; exact ⟨rfl, [.yield], rfl, by simp⟩
  | reload => left; exact ⟨rfl, [.load s.word], rfl, by simp⟩
  | acquire => left; exact ⟨rfl, [.acquire a], rfl, by simp⟩
  | ret => left; exact ⟨rfl, [], by simp, by simp⟩

theorem step_word_le (a : Nat) (s : State) (t : Nat) (h : Inv a s) :
    s.word ≤ (step a t s).word := by
  rcases step_word_cases a s t h with ⟨h1, -⟩ | ⟨h1, h2, -⟩ | ⟨h1, h2, -⟩ <;> omega

/-- C4: predicate monotonicity and value range. In every reachable state the word is
0, 1 or 2 and is not the fast-path value `~0 = 0xFFFFFFFF`; no step decreases it; a step
that changes it is the compare-exchange 0 → 1 or the store 1 → 2; every step that
records a write (successful compare-exchange or store) strictly increases it; along any
continuation of the schedule the word never goes down; and every store writes 2. -/
theorem dispatch_once_predicate_monotone (a : Nat) (sched : List Nat) (t : Nat) :
    ((run a sched init).word = 0 ∨ (run a sched init).word = 1 ∨ (run a sched init).word = 2)
    ∧ (run a sched init).word ≠ 0xFFFFFFFF
    ∧ (run a sched init).word ≤ (step a t (run a sched init)).word
    ∧ ((step a t (run a sched init)).word ≠ (run a sched init).word →
        ((run a sched init).word = 0 ∧ (step a t (run a sched init)).word = 1
          ∧ (step a t (run a sched init)).trace = (run a sched init).trace ++ [(t, Ev.cas_ok)])
        ∨ ((run a sched init).word = 1 ∧ (step a t (run a sched init)).word = 2
          ∧ (step a t (run a sched init)).trace
              = (run a sched init).trace ++ [(t, Ev.store 2)]))
    ∧ (∀ e, (step a t (run a sched init)).trace = (run a sched init).trace ++ [(t, e)] →
        (e = Ev.cas_ok ∨ ∃ v, e = Ev.store v) →
        (run a sched init).word < (step a t (run a sched init)).word)
    ∧ (∀ sched2, (run a sched init).word ≤ (run a (sched ++ sched2) init).word)
    ∧ (∀ u v, (u, Ev.store v) ∈ (run a sched init).trace → v = 2) := by
  have hI := Inv_run a sched
  have hle := Inv_word_le a _ hI
  refine ⟨by omega, by omega, step_word_le a _ t hI, ?_, ?_, ?_, ?_⟩
  · intro hne
    rcases step_word_cases a _ t hI with ⟨h1, -⟩ | h | h
    · exact absurd h1 hne
    · exact Or.inl h
    · exact Or.inr h
  · intro e he hw
    rcases step_word_cases a _ t hI with ⟨-, es, hes, hno⟩ | ⟨h1, h2, -⟩ | ⟨h1, h2, -⟩
    · rw [hes] at he
      have hcan := List.append_cancel_left he
      cases es with
      | nil => simp at hcan
      | cons x xs =>
        simp at hcan
        have := hno x (by simp)
        rw [hcan.1] at this
        rcases hw with hw | ⟨v, hw⟩
        · exact absurd hw this.1
        · exact absurd hw (this.2 v)
    · omega
    · omega
  · intro sched2
    induction sched2 using List.reverseRecOn with
    | nil => simp
    | append_singleton l u ih =>
      rw [← List.append_assoc, run_snoc]
      exact le_trans ih (step_word_le a _ u (Inv_run a _))
  · intro u v huv
    obtain ⟨w, k, acqs, -, hm, -⟩ := Inv_summary a _ hI
    have : (u, Ev.store v) ∈ milestones (run a sched init).trace :=
      (mem_milestones _ _).2 ⟨huv, rfl⟩
    rw [hm, List.mem_append] at this
    rcases this with h | h
    · have := List.mem_of_mem_take h
      simp [winnerEvents] at this
      exact this.2
    · simp at h

theorem milestones_split (pre post : List (Nat × Ev)) (x : Nat × Ev)
    (hx : isMilestone x.2 = true) :
    milestones (pre ++ x :: post) = milestones pre ++ x :: milestones post := by
  simp [milestones, List.filter_cons, hx]

theorem count_acquires (a : Nat) (acqs : List Nat) (t : Nat) :
    (acqs.map (fun u => (u, Ev.acquire a))).count (t, Ev.acquire a) = acqs.count t := by
  induction acqs with
  | nil => simp
  | cons u us ih =>
    by_cases hut : u = t
    · subst hut; simp [ih]
    · have : ¬ ((u, Ev.acquire a) = (t, Ev.acquire a)) := by simp [hut]
      simp only [List.map_cons, List.count_cons, ih]
      simp [hut]

/-- C3: once-primitive edge ordering. In every interleaved execution from the initial
state: (1) every `Acquire(a)` event is preceded in the global trace by the successful
compare-exchange and the `Release(a)` of another thread, the initialiser; (2) every
`Release(a)` event is preceded by the compare-exchange success of its thread and by the call
and the return of the closure; (3) the thread that won the compare-exchange never emits
an `Acquire`, emits at most one `Release(a)`, and has emitted exactly one once it has
returned; (4) every other thread that has returned has emitted exactly one `Acquire(a)`
and no `Release`. -/
theorem dispatch_once_release_before_acquire (a : Nat) (sched : List Nat) :
    (∀ pre t post, (run a sched init).trace = pre ++ (t, Ev.acquire a) :: post →
        ∃ w, w ≠ t ∧ (w, Ev.cas_ok) ∈ pre ∧ (w, Ev.release a) ∈ pre)
    ∧ (∀ pre w post, (run a sched init).trace = pre ++ (w, Ev.release a) :: post →
        (w, Ev.cas_ok) ∈ pre ∧ (w, Ev.invoke) ∈ pre ∧ (w, Ev.block_ret) ∈ pre)
    ∧ (∀ w, (w, Ev.cas_ok) ∈ (run a sched init).trace →
        (∀ b, (w, Ev.acquire b) ∉ (run a sched init).trace)
        ∧ (run a sched init).trace.count (w, Ev.release a) ≤ 1
        ∧ ((run a sched init).pc w = .ret →
            (run a sched init).trace.count (w, Ev.release a) = 1))
    ∧ (∀ t, (t, Ev.cas_ok) ∉ (run a sched init).trace → (run a sched init).pc t = .ret →
        (run a sched init).trace.count (t, Ev.acquire a) = 1
        ∧ ∀ b, (t, Ev.release b) ∉ (run a sched init).trace) := by
  obtain ⟨w, k, acqs, hk, hm, hnd, hwa, hk5, -, -, hpc, hpw⟩ :=
    Inv_summary a _ (Inv_run a sched)
  have hk6 : k = 0 ∨ k = 1 ∨ k = 2 ∨ k = 3 ∨ k = 4 ∨ k = 5 := by omega
  have hsub : ∀ x, x ∈ milestones (run a sched init).trace → x ∈ (run a sched init).trace :=
    fun x hx => ((mem_milestones _ _).1 hx).1
  refine ⟨?_, ?_, ?_, ?_⟩
  · intro pre t post htr
    have hms := congrArg milestones htr
    rw [milestones_split pre post (t, Ev.acquire a) rfl, hm] at hms
    have hnotW : (t, Ev.acquire a) ∉ (winnerEvents a w).take k := by
      intro hc
      have := (mem_take_winnerEvents a w k _ hc).2.1
      simp [isWaitEvent] at this
    have hin : (t, Ev.acquire a) ∈ acqs.map (fun u => (u, Ev.acquire a)) := by
      have : (t, Ev.acquire a) ∈ (winnerEvents a w).take k
          ++ acqs.map (fun u => (u, Ev.acquire a)) := by
        rw [hms]; simp
      rcases List.mem_append.1 this with h | h
      · exact absurd h hnotW
      · exact h
    have hk5 : k = 5 := by
      by_contra hne
      rw [hk5 (by omega)] at hin
      simp at hin
    subst hk5
    have hta : t ∈ acqs := by
      simp only [List.mem_map, Prod.mk.injEq] at hin
      obtain ⟨u, hu, rfl, -⟩ := hin
      exact hu
    have hall := subset_of_append_cons_eq _ _ _ _ _ hms.symm hnotW
    refine ⟨w, ?_, ?_, ?_⟩
    · rintro rfl; exact hwa hta
    · exact ((mem_milestones _ _).1 (hall _ (by simp [winnerEvents]))).1
    · exact ((mem_milestones _ _).1 (hall _ (by simp [winnerEvents]))).1
  · intro pre u post htr
    have hms := congrArg milestones htr
    rw [milestones_split pre post (u, Ev.release a) rfl, hm] at hms
    have hin : (u, Ev.release a) ∈ (winnerEvents a w).take k := by
      have : (u, Ev.release a) ∈ (winnerEvents a w).take k
          ++ acqs.map (fun u => (u, Ev.acquire a)) := by
        rw [hms]; simp
      rcases List.mem_append.1 this with h | h
      · exact h
      · simp at h
    have huw : u = w := (mem_take_winnerEvents a w k _ hin).1
    subst huw
    have hsplit : (winnerEvents a u).take k ++ acqs.map (fun t => (t, Ev.acquire a))
        = [(u, Ev.cas_ok), (u, Ev.invoke), (u, Ev.block_ret)]
          ++ ((winnerEvents a u).take k).drop 3 ++ acqs.map (fun t => (t, Ev.acquire a)) := by
      rcases hk6 with rfl | rfl | rfl | rfl | rfl | rfl <;> simp [winnerEvents] at hin ⊢
    rw [hsplit, List.append_assoc] at hms
    have hall := subset_of_append_cons_eq _ _ _ _ _ hms.symm (by simp)
    exact ⟨((mem_milestones _ _).1 (hall _ (by simp))).1,
      ((mem_milestones _ _).1 (hall _ (by simp))).1,
      ((mem_milestones _ _).1 (hall _ (by simp))).1⟩
  · intro u hu
    have hum : (u, Ev.cas_ok) ∈ milestones (run a sched init).trace :=
      (mem_milestones _ _).2 ⟨hu, rfl⟩
    rw [hm, List.mem_append] at hum
    have hin : (u, Ev.cas_ok) ∈ (winnerEvents a w).take k := by
      rcases hum with h | h
      · exact h
      · simp at h
    have huw : u = w := (mem_take_winnerEvents a w k _ hin).1
    have hk0 : 0 < k := (mem_take_winnerEvents a w k _ hin).2.2.1
    subst huw
    refine ⟨?_, ?_, ?_⟩
    · intro b hb
      have hbm : (u, Ev.acquire b) ∈ milestones (run a sched init).trace :=
        (mem_milestones _ _).2 ⟨hb, rfl⟩
      rw [hm, List.mem_append] at hbm
      rcases hbm with h | h
      · have := (mem_take_winnerEvents a u k _ h).2.1
        simp [isWaitEvent] at this
      · simp only [List.mem_map, Prod.mk.injEq] at h
        obtain ⟨v, hv, rfl, -⟩ := h
        exact hwa hv
    · rw [← count_milestones (u, Ev.release a) _ rfl, hm, List.count_append]
      have : (acqs.map (fun t => (t, Ev.acquire a))).count (u, Ev.release a) = 0 := by
        rw [List.count_eq_zero]; simp
      rw [this]
      rcases hk6 with rfl | rfl | rfl | rfl | rfl | rfl <;> simp [winnerEvents, List.count_cons]
    · intro hret
      have hk5 : k = 5 := (hpw hk0).1.1 hret
      subst hk5
      rw [← count_milestones (u, Ev.release a) _ rfl, hm, List.count_append]
      have : (acqs.map (fun t => (t, Ev.acquire a))).count (u, Ev.release a) = 0 := by
        rw [List.count_eq_zero]; simp
      rw [this]
      simp [winnerEvents, List.count_cons]
  · intro t ht hret
    have htw : t ≠ w ∨ k = 0 := by
      by_cases hk0 : k = 0
      · exact Or.inr hk0
      · left
        rintro rfl
        apply ht
        apply hsub
        rw [hm]
        rcases hk6 with rfl | rfl | rfl | rfl | rfl | rfl <;> simp [winnerEvents] at hk0 ⊢
    have hta : t ∈ acqs := (hpc t htw).2.1 hret
    have hk5 : k = 5 := by
      by_contra hne
      rw [hk5 (by omega)] at hta
      simp at hta
    subst hk5
    have htw : t ≠ w := by rintro rfl; exact hwa hta
    refine ⟨?_, ?_⟩
    · rw [← count_milestones (t, Ev.acquire a) _ rfl, hm, List.count_append, count_acquires,
        List.count_eq_one_of_mem hnd hta]
      have : ((winnerEvents a w).take 5).count (t, Ev.acquire a) = 0 := by
        rw [List.count_eq_zero]; simp [winnerEvents]
      rw [this]
    · intro b hb
      have hbm : (t, Ev.release b) ∈ milestones (run a sched init).trace :=
        (mem_milestones _ _).2 ⟨hb, rfl⟩
      rw [hm, List.mem_append] at hbm
      rcases hbm with h | h
      · exact htw (mem_take_winnerEvents a w 5 _ h).1
      · simp at h

/-- A complete execution of two threads: thread 1 wins the compare-exchange, thread 0
loses it, spins once and acquires after the store of DONE. -/
theorem run_two_threads :
    (run 9 [0, 1, 1, 0, 1, 1, 1, 1, 0, 0, 0, 0, 0] init).trace
        = [(0, .load 0), (1, .load 0), (1, .cas_ok), (0, .cas_fail 1), (1, .invoke),
           (1, .block_ret), (1, .release 9), (1, .store 2), (0, .yield), (0, .load 2),
           (0, .acquire 9)]
    ∧ (run 9 [0, 1, 1, 0, 1, 1, 1, 1, 0, 0, 0, 0, 0] init).word = 2
    ∧ (run 9 [0, 1, 1, 0, 1, 1, 1, 1, 0, 0, 0, 0, 0] init).pc 0 = .ret
    ∧ (run 9 [0, 1, 1, 0, 1, 1, 1, 1, 0, 0, 0, 0, 0] init).pc 1 = .ret := by
  decide

/-- Witness for C2: in the two-thread execution, thread 0 never won the
compare-exchange; it is on the wait path and all its events are wait-path events. -/
theorem dispatch_once_single_initializer_witness :
    onWaitPath ((run 9 [0, 1, 1, 0, 1, 1, 1, 1, 0, 0, 0, 0, 0] init).pc 0) = true
    ∧ ∀ e, (0, e) ∈ (run 9 [0, 1, 1, 0, 1, 1, 1, 1, 0, 0, 0, 0, 0] init).trace →
        isWaitEvent e = true :=
  (dispatch_once_single_initializer 9 [0, 1, 1, 0, 1, 1, 1, 1, 0, 0, 0, 0, 0]).2.2.2 0
    (by decide)

/-- Witness for C3: in the two-thread execution, the `Acquire` of thread 0 is the last
event, and the compare-exchange and `Release` of another thread come before it. -/
theorem dispatch_once_release_before_acquire_witness :
    ∃ w, w ≠ 0
      ∧ (w, Ev.cas_ok) ∈ [(0, Ev.load 0), (1, .load 0), (1, .cas_ok), (0, .cas_fail 1),
          (1, .invoke), (1, .block_ret), (1, .release 9), (1, .store 2), (0, .yield),
          (0, .load 2)]
      ∧ (w, Ev.release 9) ∈ [(0, Ev.load 0), (1, .load 0), (1, .cas_ok), (0, .cas_fail 1),
          (1, .invoke), (1, .block_ret), (1, .release 9), (1, .store 2), (0, .yield),
          (0, .load 2)] :=
  (dispatch_once_release_before_acquire 9 [0, 1, 1, 0, 1, 1, 1, 1, 0, 0, 0, 0, 0]).1
    [(0, .load 0), (1, .load 0), (1, .cas_ok), (0, .cas_fail 1), (1, .invoke),
      (1, .block_ret), (1, .release 9), (1, .store 2), (0, .yield), (0, .load 2)]
    0 [] (by decide)

/-- Witness for C4: after its load of 0, the step of thread 0 is the winning
compare-exchange, which changes the word from 0 to 1. -/
theorem dispatch_once_predicate_monotone_witness :
    ((run 9 [0] init).word = 0 ∧ (step 9 0 (run 9 [0] init)).word = 1
      ∧ (step 9 0 (run 9 [0] init)).trace = (run 9 [0] init).trace ++ [(0, Ev.cas_ok)])
    ∨ ((run 9 [0] init).word = 1 ∧ (step 9 0 (run 9 [0] init)).word = 2
      ∧ (step 9 0 (run 9 [0] init)).trace = (run 9 [0] init).trace ++ [(0, Ev.store 2)]) :=
  (dispatch_once_predicate_monotone 9 [0] 0).2.2.2.1 (by decide)

end Conc

namespace Conc

/-- The two models of `dispatch_once` agree for a thread that runs alone: from UNSEEN it
takes six steps (load, compare-exchange, call and return of the closure, `Release`,
store) and the sequential function, with a closure that does nothing, returns with the
same word and the same events; from DONE it takes four steps and both only acquire. -/
theorem solo_agrees (a t fuel : Nat) :
    ((run a [t, t, t, t, t, t] init).word = 2
      ∧ (run a [t, t, t, t, t, t] init).pc t = .ret
      ∧ ∃ w, Once.dispatch_once fuel a (fun w => .returned w) ⟨fun _ => 0, []⟩ = .returned w
          ∧ w.mem a = (run a [t, t, t, t, t, t] init).word
          ∧ w.trace = soloTrace a t (run a [t, t, t, t, t, t] init).trace)
    ∧ ((run a [t + 1, t + 1, t + 1, t + 1] (run a [t, t, t, t, t, t] init)).word = 2
      ∧ (run a [t + 1, t + 1, t + 1, t + 1] (run a [t, t, t, t, t, t] init)).pc (t + 1) = .ret
      ∧ ∃ w, Once.dispatch_once fuel a (fun w => .returned w) ⟨fun _ => 2, []⟩ = .returned w
          ∧ w.mem a = 2
          ∧ w.trace = soloTrace a (t + 1)
              (run a [t + 1, t + 1, t + 1, t + 1] (run a [t, t, t, t, t, t] init)).trace) := by
  refine ⟨⟨?_, ?_, ?_⟩, ?_, ?_, ?_⟩
  · simp [run, step, init, State.goto]
  · simp [run, step, init, State.goto]
  · refine ⟨_, Once.dispatch_once_unseen fuel a _ _ _ rfl rfl, ?_, ?_⟩
    · simp [run, step, init, State.goto, Once.atomic_store, Once.Release, Once.World.emit]
    · simp [run, step, init, State.goto, Once.atomic_store, Once.Release, Once.World.emit,
        soloTrace, toOnce]
  · simp [run, step, init, State.goto]
  · simp [run, step, init, State.goto, Function.update]
  · refine ⟨_, Once.dispatch_once_done fuel a _ _ rfl, rfl, ?_⟩
    simp [run, step, init, State.goto, Once.Acquire, Once.World.emit, soloTrace, toOnce,
      Function.update]

end Conc

namespace Submit

theorem eraseIdx_append_length {α : Type} (l : List α) (x : α) :
    (l ++ [x]).eraseIdx l.length = l := by
  rw [List.eraseIdx_append_of_length_le (le_refl _)]
  simp

/-- C5: trampoline contract. For a live context record `c = {queue, orig_context,
orig_work}`: whenever the call `orig_work(orig_context)` made right after `Acquire(c)`
returns, the trampoline returns the world of that call with `c` freed, and when the call
does not return neither does the trampoline. For a user work function `f` the trampoline
returns, and the events it adds are exactly `Acquire(c)`, the call `f(orig_context)`,
and the free of `c`, in that order; `c` is no longer live afterwards. -/
theorem dispatch_callback_wrap_acquire_contract (fuel c queue orig_context : Nat)
    (orig_work : WorkFn) (w : World)
    (hc : w.heap c = some (.context ⟨queue, orig_context, orig_work⟩)) :
    (∀ w1, callFn fuel orig_work orig_context (Acquire w c) = some w1 →
        dispatch_callback_wrap_acquire (callFn fuel) c w = some (user_free w1 c))
    ∧ (callFn fuel orig_work orig_context (Acquire w c) = none →
        dispatch_callback_wrap_acquire (callFn fuel) c w = none)
    ∧ (∀ f, orig_work = .user f →
        ∃ w2, dispatch_callback_wrap_acquire (callFn fuel) c w = some w2
          ∧ w2.trace = w.trace ++ [.acquire c, .call f orig_context, .user_free c]
          ∧ w2.heap = Function.update w.heap c none
          ∧ w2.heap c = none
          ∧ w2.pending = w.pending ∧ w2.next = w.next) := by
  refine ⟨fun w1 h1 => ?_, fun h1 => ?_, fun f hf => ?_⟩
  · simp [dispatch_callback_wrap_acquire, hc, h1]
  · simp [dispatch_callback_wrap_acquire, hc, h1]
  · subst hf
    refine ⟨user_free ((Acquire w c).emit (.call f orig_context)) c, ?_, ?_, ?_, ?_, ?_, ?_⟩
    · cases fuel <;> simp [dispatch_callback_wrap_acquire, hc, callFn]
    · simp [user_free, Acquire, World.emit]
    · simp [user_free, Acquire, World.emit]
    · simp [user_free, Acquire, World.emit]
    · simp [user_free, Acquire, World.emit]
    · simp [user_free, Acquire, World.emit]

/-- Witness for C5: a record at address 5 holding queue 1, context 7, user function 3. -/
theorem dispatch_callback_wrap_acquire_contract_witness :
    (∀ w1, callFn 0 (.user 3) 7
          (Acquire ⟨fun p => if p = 5 then some (.context ⟨1, 7, .user 3⟩) else none, 6, [], []⟩ 5)
          = some w1 →
        dispatch_callback_wrap_acquire (callFn 0) 5
          ⟨fun p => if p = 5 then some (.context ⟨1, 7, .user 3⟩) else none, 6, [], []⟩
          = some (user_free w1 5))
    ∧ (callFn 0 (.user 3) 7
          (Acquire ⟨fun p => if p = 5 then some (.context ⟨1, 7, .user 3⟩) else none, 6, [], []⟩ 5)
          = none →
        dispatch_callback_wrap_acquire (callFn 0) 5
          ⟨fun p => if p = 5 then some (.context ⟨1, 7, .user 3⟩) else none, 6, [], []⟩ = none)
    ∧ (∀ f, WorkFn.user 3 = .user f →
        ∃ w2, dispatch_callback_wrap_acquire (callFn 0) 5
            ⟨fun p => if p = 5 then some (.context ⟨1, 7, .user 3⟩) else none, 6, [], []⟩ = some w2
          ∧ w2.trace = [] ++ [.acquire 5, .call f 7, .user_free 5]
          ∧ w2.heap = Function.update
              (fun p => if p = 5 then some (.context ⟨1, 7, .user 3⟩) else none) 5 none
          ∧ w2.heap 5 = none
          ∧ w2.pending = [] ∧ w2.next = 6) :=
  dispatch_callback_wrap_acquire_contract 0 5 1 7 (.user 3)
    ⟨fun p => if p = 5 then some (.context ⟨1, 7, .user 3⟩) else none, 6, [], []⟩ rfl

theorem pick_lt (w : World) (c : Nat) : w.pick c < max w.next (w.pick c + 1) := by
  omega

/-- An allocation never returns a live block that lies below `next`. -/
theorem pick_ne_live (w : World) (c a : Nat) (hlive : w.heap a ≠ none) (hlt : a < w.next) :
    w.pick c ≠ a := by
  unfold World.pick
  split
  · rename_i h1
    intro hc
    rw [hc] at h1
    exact hlive h1
  · omega

/-- The record of a closure-form wrapper is not its heap copy. -/
theorem recordAddrB_ne (al : Allocator) (block : Nat) (w : World) :
    recordAddrB al block w ≠ copyAddr al block w := by
  have h := pick_ne_live (Block_copy al block w).2
    (al.record_block (Block_copy al block w).2) (copyAddr al block w)
    (by simp [Block_copy, copyAddr]) (by simp only [Block_copy, copyAddr]; omega)
  simpa [recordAddrB, user_alloc] using h

theorem DISPATCH_INTERCEPT_F_eq (al : Allocator) (name : FuncEntry) (q context : Nat)
    (work : WorkFn) (w : World) :
    DISPATCH_INTERCEPT_F al name q context work w
      = { heap := Function.update w.heap (recordAddr al w) (some (.context ⟨q, context, work⟩)),
          next := max w.next (recordAddr al w + 1),
          pending := w.pending
            ++ [.fn name q (recordAddr al w) .dispatch_callback_wrap_acquire],
          trace := w.trace ++ [.user_alloc (recordAddr al w), .release (recordAddr al w),
                     .real_f name q (recordAddr al w) .dispatch_callback_wrap_acquire] } := by
  simp [DISPATCH_INTERCEPT_F, AllocContext, user_alloc, Release, World.emit, REAL_f,
    recordAddr]

theorem DISPATCH_INTERCEPT_B_eq (al : Allocator) (name : BlockEntry) (q block : Nat)
    (w : World) :
    DISPATCH_INTERCEPT_B al name q block w
      = { heap := Function.update
                    (Function.update w.heap (copyAddr al block w) (some (.block block)))
                    (recordAddrB al block w)
                    (some (.context ⟨q, copyAddr al block w, .invoke_and_release_block⟩)),
          next := max (max w.next (copyAddr al block w + 1)) (recordAddrB al block w + 1),
          pending := w.pending
            ++ [.fn name.f q (recordAddrB al block w) .dispatch_callback_wrap_acquire],
          trace := w.trace ++ [.block_copy block (copyAddr al block w),
                     .user_alloc (recordAddrB al block w), .release (recordAddrB al block w),
                     .real_f name.f q (recordAddrB al block w)
                       .dispatch_callback_wrap_acquire] } := by
  simp [DISPATCH_INTERCEPT_B, AllocContext, user_alloc, Block_copy, Release, World.emit,
    REAL_f, recordAddrB, copyAddr]

/-- C7: closure-form routing. A closure-form wrapper `X` called with `(q, block)` copies
the closure to the heap once (copy `h`), allocates a record `r ≠ h` holding
`{q, h, invoke_and_release_block}`, emits `Release(r)`, and calls the original
function-pointer form of the same entry point with `(q, r, dispatch_callback_wrap_acquire)`:
`dispatch_async` goes to `dispatch_async_f`, `dispatch_barrier_async` to
`dispatch_barrier_async_f`, `dispatch_sync` to `dispatch_sync_f`, `dispatch_barrier_sync`
to `dispatch_barrier_sync_f`; no original closure form is called. When the dispatcher
then runs that item, the run returns and adds exactly `Acquire(r)`, one invocation of the
closure body through the heap copy, one release of the heap copy, then the free of `r`;
neither the copy nor the record is live afterwards. -/
theorem DISPATCH_INTERCEPT_B_routing (al : Allocator) (fuel : Nat) (name : BlockEntry)
    (q block : Nat) (w : World) :
    DISPATCH_INTERCEPT_B al name q block w
      = { heap := Function.update
                    (Function.update w.heap (copyAddr al block w) (some (.block block)))
                    (recordAddrB al block w)
                    (some (.context ⟨q, copyAddr al block w, .invoke_and_release_block⟩)),
          next := max (max w.next (copyAddr al block w + 1)) (recordAddrB al block w + 1),
          pending := w.pending
            ++ [.fn name.f q (recordAddrB al block w) .dispatch_callback_wrap_acquire],
          trace := w.trace ++ [.block_copy block (copyAddr al block w),
                     .user_alloc (recordAddrB al block w), .release (recordAddrB al block w),
                     .real_f name.f q (recordAddrB al block w)
                       .dispatch_callback_wrap_acquire] }
    ∧ recordAddrB al block w ≠ copyAddr al block w
    ∧ (DISPATCH_INTERCEPT_B al .dispatch_async q block w).trace
        = w.trace ++ [.block_copy block (copyAddr al block w),
            .user_alloc (recordAddrB al block w), .release (recordAddrB al block w),
            .real_f .dispatch_async_f q (recordAddrB al block w)
              .dispatch_callback_wrap_acquire]
    ∧ (DISPATCH_INTERCEPT_B al .dispatch_barrier_async q block w).trace
        = w.trace ++ [.block_copy block (copyAddr al block w),
            .user_alloc (recordAddrB al block w), .release (recordAddrB al block w),
            .real_f .dispatch_barrier_async_f q (recordAddrB al block w)
              .dispatch_callback_wrap_acquire]
    ∧ (DISPATCH_INTERCEPT_B al .dispatch_sync q block w).trace
        = w.trace ++ [.block_copy block (copyAddr al block w),
            .user_alloc (recordAddrB al block w), .release (recordAddrB al block w),
            .real_f .dispatch_sync_f q (recordAddrB al block w)
              .dispatch_callback_wrap_acquire]
    ∧ (DISPATCH_INTERCEPT_B al .dispatch_barrier_sync q block w).trace
        = w.trace ++ [.block_copy block (copyAddr al block w),
            .user_alloc (recordAddrB al block w), .release (recordAddrB al block w),
            .real_f .dispatch_barrier_sync_f q (recordAddrB al block w)
              .dispatch_callback_wrap_acquire]
    ∧ (DISPATCH_INTERCEPT_B al name q block w).pending
        = w.pending ++ [match name with
            | .dispatch_async =>
              .fn .dispatch_async_f q (recordAddrB al block w) .dispatch_callback_wrap_acquire
            | .dispatch_barrier_async =>
              .fn .dispatch_barrier_async_f q (recordAddrB al block w)
                .dispatch_callback_wrap_acquire
            | .dispatch_sync =>
              .fn .dispatch_sync_f q (recordAddrB al block w) .dispatch_callback_wrap_acquire
            | .dispatch_barrier_sync =>
              .fn .dispatch_barrier_sync_f q (recordAddrB al block w)
                .dispatch_callback_wrap_acquire]
    ∧ (∀ n q2 b, Event.real_b n q2 b ∉
          (DISPATCH_INTERCEPT_B al name q block w).trace.drop w.trace.length)
    ∧ ∃ w2, dispatcher_run (fuel + 1) w.pending.length
              (DISPATCH_INTERCEPT_B al name q block w) = some w2
        ∧ w2.trace = (DISPATCH_INTERCEPT_B al name q block w).trace
            ++ [.acquire (recordAddrB al block w), .block_invoke block,
                .block_release (copyAddr al block w), .user_free (recordAddrB al block w)]
        ∧ (w2.trace.drop w.trace.length).count
            (.block_copy block (copyAddr al block w)) = 1
        ∧ (w2.trace.drop w.trace.length).count (.block_invoke block) = 1
        ∧ (w2.trace.drop w.trace.length).count (.block_release (copyAddr al block w)) = 1
        ∧ w2.heap (copyAddr al block w) = none ∧ w2.heap (recordAddrB al block w) = none
        ∧ w2.pending = w.pending := by
  have hne := recordAddrB_ne al block w
  refine ⟨DISPATCH_INTERCEPT_B_eq al name q block w, hne, ?_, ?_, ?_, ?_, ?_, ?_, ?_⟩
  · rw [DISPATCH_INTERCEPT_B_eq]; rfl
  · rw [DISPATCH_INTERCEPT_B_eq]; rfl
  · rw [DISPATCH_INTERCEPT_B_eq]; rfl
  · rw [DISPATCH_INTERCEPT_B_eq]; rfl
  · rw [DISPATCH_INTERCEPT_B_eq]; cases name <;> rfl
  · intro n q2 b
    rw [DISPATCH_INTERCEPT_B_eq]
    simp
  · rw [DISPATCH_INTERCEPT_B_eq]
    refine ⟨{ heap := Function.update (Function.update (Function.update
                  (Function.update w.heap (copyAddr al block w) (some (.block block)))
                  (recordAddrB al block w)
                  (some (.context ⟨q, copyAddr al block w, .invoke_and_release_block⟩)))
                  (copyAddr al block w) none) (recordAddrB al block w) none,
              next := max (max w.next (copyAddr al block w + 1)) (recordAddrB al block w + 1),
              pending := w.pending,
              trace := w.trace ++ [.block_copy block (copyAddr al block w),
                     .user_alloc (recordAddrB al block w), .release (recordAddrB al block w),
                     .real_f name.f q (recordAddrB al block w) .dispatch_callback_wrap_acquire,
                     .acquire (recordAddrB al block w), .block_invoke block,
                     .block_release (copyAddr al block w),
                     .user_free (recordAddrB al block w)] },
      ?_, ?_, ?_, ?_, ?_, ?_, ?_, ?_⟩
    · simp [dispatcher_run, eraseIdx_append_length, callFn,
        dispatch_callback_wrap_acquire, invoke_and_release_block, Block_release, Acquire,
        World.emit, user_free, Function.update, hne, hne.symm]
    · simp
    · simp
    · simp
    · simp
    · simp [Function.update, hne, hne.symm]
    · simp
    · simp

/-- The addresses of held records and copies are live and lie below `hi`. -/
theorem Pend_live {heap : Nat → Option Obj} {hi : Nat} {lW lD : List Item} {used : List Nat}
    (h : Pend heap hi lW lD used) : ∀ a ∈ used, heap a ≠ none ∧ a < hi := by
  induction h with
  | nil => intro a ha; simp at ha
  | fn r name q c f lW lD used hr hlt hfr rest ih =>
    intro a ha
    rcases List.mem_cons.1 ha with h1 | h1
    · subst h1; exact ⟨by simp [hr], hlt⟩
    · exact ih a h1
  | blk r h name q b lW lD used hh hr hlt hlth hne hfr hfh rest ih =>
    intro a ha
    rcases List.mem_cons.1 ha with h1 | h1
    · subst h1; exact ⟨by simp [hr], hlt⟩
    · rcases List.mem_cons.1 h1 with h2 | h2
      · subst h2; exact ⟨by simp [hh], hlth⟩
      · exact ih a h2

theorem Pend_congr {heap heap2 : Nat → Option Obj} {hi hi2 : Nat} {lW lD : List Item}
    {used : List Nat} (h : Pend heap hi lW lD used)
    (hag : ∀ a ∈ used, heap2 a = heap a) (hhi : hi ≤ hi2) :
    Pend heap2 hi2 lW lD used := by
  induction h with
  | nil => exact Pend.nil
  | fn r name q c f lW lD used hr hlt hfr rest ih =>
    exact Pend.fn r name q c f lW lD used (by rw [hag r (by simp)]; exact hr) (by omega) hfr
      (ih (fun a ha => hag a (List.mem_cons_of_mem _ ha)))
  | blk r h name q b lW lD used hh hr hlt hlth hne hfr hfh rest ih =>
    exact Pend.blk r h name q b lW lD used (by rw [hag h (by simp)]; exact hh)
      (by rw [hag r (by simp)]; exact hr) (by omega) (by omega) hne hfr hfh
      (ih (fun a ha => hag a (List.mem_cons_of_mem _ (List.mem_cons_of_mem _ ha))))

/-- An allocation returns an address that no held item uses. -/
theorem pick_fresh {w : World} {hi : Nat} {lW lD : List Item} {used : List Nat}
    (h : Pend w.heap hi lW lD used) (hhi : hi ≤ w.next) (c : Nat) : w.pick c ∉ used := by
  intro hc
  have hl := Pend_live h _ hc
  exact pick_ne_live w c (w.pick c) hl.1 (by omega) rfl

theorem Pend_snoc_fn {heap : Nat → Option Obj} {hi hi2 : Nat} {lW lD : List Item}
    {used : List Nat} (h : Pend heap hi lW lD used) (name : FuncEntry) (q c f r : Nat)
    (hr : r ∉ used) (hlt : r < hi2) (hhi : hi ≤ hi2) :
    Pend (Function.update heap r (some (.context ⟨q, c, .user f⟩))) hi2
      (lW ++ [.fn name q r .dispatch_callback_wrap_acquire])
      (lD ++ [.fn name q c (.user f)]) (used ++ [r]) := by
  induction h with
  | nil => exact Pend.fn r name q c f [] [] [] (by simp) hlt (by simp) Pend.nil
  | fn r0 name0 q0 c0 f0 lW lD used hr0 hlt0 hfr0 rest ih =>
    have hne : r0 ≠ r := by rintro rfl; exact hr (by simp)
    exact Pend.fn r0 name0 q0 c0 f0 _ _ _
      (by rw [Function.update_noteq hne]; exact hr0) (by omega)
      (by simp [hfr0, hne]) (ih (fun hc => hr (List.mem_cons_of_mem _ hc)))
  | blk r0 h0 name0 q0 b0 lW lD used hh0 hr0 hlt0 hlth0 hne0 hfr0 hfh0 rest ih =>
    have hne : r0 ≠ r := by rintro rfl; exact hr (by simp)
    have hneh : h0 ≠ r := by rintro rfl; exact hr (by simp)
    exact Pend.blk r0 h0 name0 q0 b0 _ _ _
      (by rw [Function.update_noteq hneh]; exact hh0)
      (by rw [Function.update_noteq hne]; exact hr0) (by omega) (by omega) hne0
      (by simp [hfr0, hne]) (by simp [hfh0, hneh])
      (ih (fun hc => hr (List.mem_cons_of_mem _ (List.mem_cons_of_mem _ hc))))

theorem Pend_snoc_blk {heap : Nat → Option Obj} {hi hi2 : Nat} {lW lD : List Item}
    {used : List Nat} (h : Pend heap hi lW lD used) (name : BlockEntry) (q b r a : Nat)
    (hr : r ∉ used) (ha : a ∉ used) (hra : r ≠ a) (hlt : r < hi2) (hlta : a < hi2)
    (hhi : hi ≤ hi2) :
    Pend (Function.update (Function.update heap a (some (.block b))) r
            (some (.context ⟨q, a, .invoke_and_release_block⟩))) hi2
      (lW ++ [.fn name.f q r .dispatch_callback_wrap_acquire])
      (lD ++ [.blk name q b]) (used ++ [r, a]) := by
  induction h with
  | nil =>
    exact Pend.blk r a name q b [] [] []
      (by rw [Function.update_noteq hra.symm]; simp) (by simp) hlt hlta hra (by simp) (by simp)
      Pend.nil
  | fn r0 name0 q0 c0 f0 lW lD used hr0 hlt0 hfr0 rest ih =>
    have hne : r0 ≠ r := by rintro rfl; exact hr (by simp)
    have hnea : r0 ≠ a := by rintro rfl; exact ha (by simp)
    exact Pend.fn r0 name0 q0 c0 f0 _ _ _
      (by rw [Function.update_noteq hne, Function.update_noteq hnea]; exact hr0) (by omega)
      (by simp [hfr0, hne, hnea])
      (ih (fun hc => hr (List.mem_cons_of_mem _ hc)) (fun hc => ha (List.mem_cons_of_mem _ hc)))
  | blk r0 h0 name0 q0 b0 lW lD used hh0 hr0 hlt0 hlth0 hne0 hfr0 hfh0 rest ih =>
    have hne : r0 ≠ r := by rintro rfl; exact hr (by simp)
    have hnea : r0 ≠ a := by rintro rfl; exact ha (by simp)
    have hneh : h0 ≠ r := by rintro rfl; exact hr (by simp)
    have hneha : h0 ≠ a := by rintro rfl; exact ha (by simp)
    exact Pend.blk r0 h0 name0 q0 b0 _ _ _
      (by rw [Function.update_noteq hneh, Function.update_noteq hneha]; exact hh0)
      (by rw [Function.update_noteq hne, Function.update_noteq hnea]; exact hr0)
      (by omega) (by omega) hne0
      (by simp [hfr0, hne, hnea]) (by simp [hfh0, hneh, hneha])
      (ih (fun hc => hr (List.mem_cons_of_mem _ (List.mem_cons_of_mem _ hc)))
        (fun hc => ha (List.mem_cons_of_mem _ (List.mem_cons_of_mem _ hc))))

theorem Pend_length {heap : Nat → Option Obj} {hi : Nat} {lW lD : List Item}
    {used : List Nat} (h : Pend heap hi lW lD used) : lW.length = lD.length := by
  induction h with
  | nil => rfl
  | fn r name q c f lW lD used hr hlt hfr rest ih => simp [ih]
  | blk r h name q b lW lD used hh hr hlt hlth hne hfr hfh rest ih => simp [ih]

/-- Discarding the items at the same position on both sides keeps the correspondence. -/
theorem Pend_eraseIdx {heap : Nat → Option Obj} {hi : Nat} {lW lD : List Item}
    {used : List Nat} (h : Pend heap hi lW lD used) (i : Nat) :
    ∃ used2, (∀ a ∈ used2, a ∈ used) ∧ Pend heap hi (lW.eraseIdx i) (lD.eraseIdx i) used2 := by
  induction h generalizing i with
  | nil => exact ⟨[], by simp, Pend.nil⟩
  | fn r name q c f lW lD used hr hlt hfr rest ih =>
    cases i with
    | zero => exact ⟨used, fun a ha => List.mem_cons_of_mem _ ha, rest⟩
    | succ i =>
      obtain ⟨used2, hsub, hP⟩ := ih i
      refine ⟨r :: used2, ?_, Pend.fn r name q c f _ _ _ hr hlt (fun hc => hfr (hsub r hc)) hP⟩
      intro a ha
      rcases List.mem_cons.1 ha with h1 | h1
      · simp [h1]
      · exact List.mem_cons_of_mem _ (hsub a h1)
  | blk r h name q b lW lD used hh hr hlt hlth hne hfr hfh rest ih =>
    cases i with
    | zero =>
      exact ⟨used, fun a ha => List.mem_cons_of_mem _ (List.mem_cons_of_mem _ ha), rest⟩
    | succ i =>
      obtain ⟨used2, hsub, hP⟩ := ih i
      refine ⟨r :: h :: used2, ?_, Pend.blk r h name q b _ _ _ hh hr hlt hlth hne
        (fun hc => hfr (hsub r hc)) (fun hc => hfh (hsub h hc)) hP⟩
      intro a ha
      rcases List.mem_cons.1 ha with h1 | h1
      · simp [h1]
      · rcases List.mem_cons.1 h1 with h2 | h2
        · simp [h2]
        · exact List.mem_cons_of_mem _ (List.mem_cons_of_mem _ (hsub a h2))

/-- The items at position `i` on both sides: none, or a corresponding pair; after the
wrapped side has freed the record (and released the heap copy), the remaining items
still correspond, and none of them uses the freed addresses. -/
theorem Pend_run {heap : Nat → Option Obj} {hi : Nat} {lW lD : List Item}
    {used : List Nat} (h : Pend heap hi lW lD used) (i : Nat) :
    (lW[i]? = none ∧ lD[i]? = none)
    ∨ (∃ name q r c f used2, r ∈ used ∧ r ∉ used2 ∧ (∀ a ∈ used2, a ∈ used)
        ∧ lW[i]? = some (.fn name q r .dispatch_callback_wrap_acquire)
        ∧ lD[i]? = some (.fn name q c (.user f))
        ∧ heap r = some (.context ⟨q, c, .user f⟩)
        ∧ Pend (Function.update heap r none) hi (lW.eraseIdx i) (lD.eraseIdx i) used2)
    ∨ (∃ name q r a b used2, r ∈ used ∧ a ∈ used ∧ r ∉ used2 ∧ a ∉ used2 ∧ r ≠ a
        ∧ (∀ x ∈ used2, x ∈ used)
        ∧ lW[i]? = some (.fn (BlockEntry.f name) q r .dispatch_callback_wrap_acquire)
        ∧ lD[i]? = some (.blk name q b)
        ∧ heap a = some (.block b)
        ∧ heap r = some (.context ⟨q, a, .invoke_and_release_block⟩)
        ∧ Pend (Function.update (Function.update heap a none) r none) hi
            (lW.eraseIdx i) (lD.eraseIdx i) used2) := by
  induction h generalizing i with
  | nil => left; simp
  | fn r0 name0 q0 c0 f0 lW lD used hr0 hlt0 hfr0 rest ih =>
    cases i with
    | zero =>
      right; left
      refine ⟨name0, q0, r0, c0, f0, used, by simp, hfr0,
        fun a ha => List.mem_cons_of_mem _ ha, by simp, by simp, hr0, ?_⟩
      exact Pend_congr rest (fun a ha => by
        rw [Function.update_noteq (by rintro rfl; exact hfr0 ha)]) (le_refl _)
    | succ i =>
      rcases ih i with ⟨h1, h2⟩ | ⟨n1, q1, r1, c1, f1, u2, hm, hnm, hsub, h1, h2, h3, h4⟩
          | ⟨n1, q1, r1, a1, b1, u2, hm, hma, hnm, hnma, hra, hsub, h1, h2, h3, h4, h5⟩
      · left; simp only [List.getElem?_cons_succ]; exact ⟨h1, h2⟩
      · right; left
        have hne : r0 ≠ r1 := by rintro rfl; exact hfr0 hm
        refine ⟨n1, q1, r1, c1, f1, r0 :: u2, List.mem_cons_of_mem _ hm,
          by simp [hnm, hne.symm], ?_, by simpa only [List.getElem?_cons_succ] using h1,
          by simpa only [List.getElem?_cons_succ] using h2, h3, ?_⟩
        · intro a ha
          rcases List.mem_cons.1 ha with h6 | h6
          · simp [h6]
          · exact List.mem_cons_of_mem _ (hsub a h6)
        · exact Pend.fn r0 name0 q0 c0 f0 _ _ _
            (by rw [Function.update_noteq hne]; exact hr0) hlt0
            (fun hc => hfr0 (hsub r0 hc)) h4
      · right; right
        have hne : r0 ≠ r1 := by rintro rfl; exact hfr0 hm
        have hnea : r0 ≠ a1 := by rintro rfl; exact hfr0 hma
        refine ⟨n1, q1, r1, a1, b1, r0 :: u2, List.mem_cons_of_mem _ hm,
          List.mem_cons_of_mem _ hma,
          by simp [hnm, hne.symm], by simp [hnma, hnea.symm], hra, ?_,
          by simpa only [List.getElem?_cons_succ] using h1,
          by simpa only [List.getElem?_cons_succ] using h2, h3, h4, ?_⟩
        · intro a ha
          rcases List.mem_cons.1 ha with h6 | h6
          · simp [h6]
          · exact List.mem_cons_of_mem _ (hsub a h6)
        · exact Pend.fn r0 name0 q0 c0 f0 _ _ _
            (by rw [Function.update_noteq hne, Function.update_noteq hnea]; exact hr0) hlt0
            (fun hc => hfr0 (hsub r0 hc)) h5
  | blk r0 h0 name0 q0 b0 lW lD used hh0 hr0 hlt0 hlth0 hne0 hfr0 hfh0 rest ih =>
    cases i with
    | zero =>
      right; right
      refine ⟨name0, q0, r0, h0, b0, used, by simp, by simp, hfr0, hfh0, hne0,
        fun a ha => List.mem_cons_of_mem _ (List.mem_cons_of_mem _ ha), by simp, by simp,
        hh0, hr0, ?_⟩
      exact Pend_congr rest (fun a ha => by
        rw [Function.update_noteq (by rintro rfl; exact hfr0 ha),
          Function.update_noteq (by rintro rfl; exact hfh0 ha)]) (le_refl _)
    | succ i =>
      rcases ih i with ⟨h1, h2⟩ | ⟨n1, q1, r1, c1, f1, u2, hm, hnm, hsub, h1, h2, h3, h4⟩
          | ⟨n1, q1, r1, a1, b1, u2, hm, hma, hnm, hnma, hra, hsub, h1, h2, h3, h4, h5⟩
      · left; simp only [List.getElem?_cons_succ]; exact ⟨h1, h2⟩
      · right; left
        have hne : r0 ≠ r1 := by rintro rfl; exact hfr0 hm
        have hneh : h0 ≠ r1 := by rintro rfl; exact hfh0 hm
        refine ⟨n1, q1, r1, c1, f1, r0 :: h0 :: u2,
          List.mem_cons_of_mem _ (List.mem_cons_of_mem _ hm),
          by simp [hnm, hne.symm, hneh.symm], ?_,
          by simpa only [List.getElem?_cons_succ] using h1,
          by simpa only [List.getElem?_cons_succ] using h2, h3, ?_⟩
        · intro a ha
          rcases List.mem_cons.1 ha with h6 | h6
          · simp [h6]
          · rcases List.mem_cons.1 h6 with h7 | h7
            · simp [h7]
            · exact List.mem_cons_of_mem _ (List.mem_cons_of_mem _ (hsub a h7))
        · exact Pend.blk r0 h0 name0 q0 b0 _ _ _
            (by rw [Function.update_noteq hneh]; exact hh0)
            (by rw [Function.update_noteq hne]; exact hr0) hlt0 hlth0 hne0
            (fun hc => hfr0 (hsub r0 hc)) (fun hc => hfh0 (hsub h0 hc)) h4
      · right; right
        have hne : r0 ≠ r1 := by rintro rfl; exact hfr0 hm
        have hneh : h0 ≠ r1 := by rintro rfl; exact hfh0 hm
        have hnea : r0 ≠ a1 := by rintro rfl; exact hfr0 hma
        have hneha : h0 ≠ a1 := by rintro rfl; exact hfh0 hma
        refine ⟨n1, q1, r1, a1, b1, r0 :: h0 :: u2,
          List.mem_cons_of_mem _ (List.mem_cons_of_mem _ hm),
          List.mem_cons_of_mem _ (List.mem_cons_of_mem _ hma),
          by simp [hnm, hne.symm, hneh.symm], by simp [hnma, hnea.symm, hneha.symm], hra, ?_,
          by simpa only [List.getElem?_cons_succ] using h1,
          by simpa only [List.getElem?_cons_succ] using h2, h3, h4, ?_⟩
        · intro a ha
          rcases List.mem_cons.1 ha with h6 | h6
          · simp [h6]
          · rcases List.mem_cons.1 h6 with h7 | h7
            · simp [h7]
            · exact List.mem_cons_of_mem _ (List.mem_cons_of_mem _ (hsub a h7))
        · exact Pend.blk r0 h0 name0 q0 b0 _ _ _
            (by rw [Function.update_noteq hneh, Function.update_noteq hneha]; exact hh0)
            (by rw [Function.update_noteq hne, Function.update_noteq hnea]; exact hr0)
            hlt0 hlth0 hne0
            (fun hc => hfr0 (hsub r0 hc)) (fun hc => hfh0 (hsub h0 hc)) h5

theorem axis_f (name : BlockEntry) : name.f.axis = name.axis := by
  cases name <;> rfl

/-- The record of a function-pointer-form wrapper is used by no held item. -/
theorem recordAddr_fresh (al : Allocator) {w : World} {lW lD : List Item} {used : List Nat}
    (h : Pend w.heap w.next lW lD used) : recordAddr al w ∉ used :=
  pick_fresh h (le_refl _) _

/-- The heap copy of a closure-form wrapper is used by no held item. -/
theorem copyAddr_fresh (al : Allocator) (block : Nat) {w : World} {lW lD : List Item}
    {used : List Nat} (h : Pend w.heap w.next lW lD used) : copyAddr al block w ∉ used :=
  pick_fresh h (le_refl _) _

/-- The record of a closure-form wrapper is used by no held item. -/
theorem recordAddrB_fresh (al : Allocator) (block : Nat) {w : World} {lW lD : List Item}
    {used : List Nat} (h : Pend w.heap w.next lW lD used) : recordAddrB al block w ∉ used := by
  have ha := copyAddr_fresh al block h
  have h1 : Pend (Block_copy al block w).2.heap (Block_copy al block w).2.next lW lD used := by
    refine Pend_congr h (fun a hm => ?_) ?_
    · simp only [Block_copy]
      rw [Function.update_noteq]
      rintro rfl
      exact ha hm
    · simp only [Block_copy]; omega
  exact pick_fresh h1 (le_refl _) _

/-- Appending events on both sides keeps `OnlyRecords`, when the events added to the
wrapped run are observable or record bookkeeping and no closure item appears. -/
theorem OnlyRecords_append (tW tD esW esD : List Event) (pendD pendD2 : List Item)
    (h : OnlyRecords tW tD pendD)
    (hW : ∀ e ∈ esW, observe e = none → isRecordBookkeeping e = true)
    (hP : (∀ n q b, Item.blk n q b ∉ pendD) → ∀ n q b, Item.blk n q b ∉ pendD2) :
    OnlyRecords (tW ++ esW) (tD ++ esD) pendD2 := by
  intro hno
  have h1 := h (fun n q b hc => hno n q b (List.mem_append_left _ hc))
  refine ⟨hP h1.1, fun e he => ?_⟩
  rcases List.mem_append.1 he with h2 | h2
  · exact h1.2 e h2
  · exact hW e h2

/-- One step keeps the two runs in simulation, and neither side fails. -/
theorem Sim_step (al : Allocator) (fuel : Nat) (w0 wW wD : World) (st : Step)
    (h : Sim w0 wW wD) :
    ∃ wW2 wD2, st.wrapped al (fuel + 1) wW = some wW2 ∧ st.direct (fuel + 1) wD = some wD2
      ∧ Sim w0 wW2 wD2 := by
  obtain ⟨used, tW, tD, hP, hW, hD, hobs, hbk, hK⟩ := h
  cases st with
  | submit_f name q context f =>
    have hfr := recordAddr_fresh al hP
    refine ⟨_, _, rfl, rfl, used ++ [recordAddr al wW],
      tW ++ [.user_alloc (recordAddr al wW), .release (recordAddr al wW),
        .real_f name q (recordAddr al wW) .dispatch_callback_wrap_acquire],
      tD ++ [.real_f name q context (.user f)], ?_, ?_, ?_, ?_, ?_, ?_⟩
    · rw [DISPATCH_INTERCEPT_F_eq]
      exact Pend_snoc_fn hP name q context f _ hfr (by dsimp only; omega) (by dsimp only; omega)
    · rw [DISPATCH_INTERCEPT_F_eq]; simp [hW]
    · simp [REAL_f, hD]
    · simp [List.filterMap_append, hobs, observe]
    · intro e he
      rcases List.mem_append.1 he with h1 | h1
      · exact hbk e h1
      · simp at h1; subst h1; rfl
    · refine OnlyRecords_append _ _ _ _ _ _ hK ?_ ?_
      · intro e he _
        simp at he
        rcases he with rfl | rfl | rfl <;> simp [isRecordBookkeeping, observe] at *
      · intro hno n1 q1 b1 hc
        simp [REAL_f] at hc
        exact hno n1 q1 b1 hc
  | submit_b name q block =>
    have hfa := copyAddr_fresh al block hP
    have hfr := recordAddrB_fresh al block hP
    have hne := recordAddrB_ne al block wW
    refine ⟨_, _, rfl, rfl, used ++ [recordAddrB al block wW, copyAddr al block wW],
      tW ++ [.block_copy block (copyAddr al block wW), .user_alloc (recordAddrB al block wW),
        .release (recordAddrB al block wW),
        .real_f name.f q (recordAddrB al block wW) .dispatch_callback_wrap_acquire],
      tD ++ [.real_b name q block], ?_, ?_, ?_, ?_, ?_, ?_⟩
    · rw [DISPATCH_INTERCEPT_B_eq]
      exact Pend_snoc_blk hP name q block _ _ hfr hfa hne (by dsimp only; omega)
        (by dsimp only; omega) (by dsimp only; omega)
    · rw [DISPATCH_INTERCEPT_B_eq]; simp [hW]
    · simp [REAL_b, hD]
    · simp [List.filterMap_append, hobs, observe, axis_f]
    · intro e he
      rcases List.mem_append.1 he with h1 | h1
      · exact hbk e h1
      · simp at h1; subst h1; rfl
    · intro hno
      exact absurd (by simp) (hno name q block)
  | drop i =>
    obtain ⟨used2, -, hP2⟩ := Pend_eraseIdx hP i
    refine ⟨_, _, rfl, rfl, used2, tW, tD, hP2, hW, hD, hobs, hbk, ?_⟩
    intro hno
    exact ⟨fun n q b hc => (hK hno).1 n q b (List.mem_of_mem_eraseIdx hc), (hK hno).2⟩
  | run i =>
    rcases Pend_run hP i with ⟨h1, h2⟩
        | ⟨n1, q1, r1, c1, f1, u2, -, -, -, h1, h2, h3, h4⟩
        | ⟨n1, q1, r1, a1, b1, u2, -, -, -, -, hra, -, h1, h2, h3, h4, h5⟩
    · refine ⟨wW, wD, ?_, ?_, used, tW, tD, hP, hW, hD, hobs, hbk, hK⟩
      · simp [Step.wrapped, dispatcher_run, h1]
      · simp [Step.direct, dispatcher_run, h2]
    · refine ⟨{ heap := Function.update wW.heap r1 none, next := wW.next,
                pending := wW.pending.eraseIdx i,
                trace := wW.trace ++ [.acquire r1, .call f1 c1, .user_free r1] },
              { heap := wD.heap, next := wD.next, pending := wD.pending.eraseIdx i,
                trace := wD.trace ++ [.call f1 c1] }, ?_, ?_,
              u2, tW ++ [.acquire r1, .call f1 c1, .user_free r1], tD ++ [.call f1 c1],
              h4, ?_, ?_, ?_, ?_, ?_⟩
      · simp [Step.wrapped, dispatcher_run, h1, callFn, dispatch_callback_wrap_acquire, h3,
          Acquire, World.emit, user_free]
      · simp [Step.direct, dispatcher_run, h2, callFn, World.emit]
      · simp [hW]
      · simp [hD]
      · simp [List.filterMap_append, hobs, observe]
      · intro e he
        rcases List.mem_append.1 he with h6 | h6
        · exact hbk e h6
        · simp at h6; subst h6; rfl
      · refine OnlyRecords_append _ _ _ _ _ _ hK ?_ ?_
        · intro e he _
          simp at he
          rcases he with rfl | rfl | rfl <;> simp [isRecordBookkeeping, observe] at *
        · intro hno n2 q2 b2 hc
          exact hno n2 q2 b2 (List.mem_of_mem_eraseIdx hc)
    · refine ⟨{ heap := Function.update (Function.update wW.heap a1 none) r1 none,
                next := wW.next, pending := wW.pending.eraseIdx i,
                trace := wW.trace ++ [.acquire r1, .block_invoke b1, .block_release a1,
                  .user_free r1] },
              { heap := wD.heap, next := wD.next, pending := wD.pending.eraseIdx i,
                trace := wD.trace ++ [.block_invoke b1] }, ?_, ?_,
              u2, tW ++ [.acquire r1, .block_invoke b1, .block_release a1,
                  .user_free r1], tD ++ [.block_invoke b1],
              h5, ?_, ?_, ?_, ?_, ?_⟩
      · simp [Step.wrapped, dispatcher_run, h1, callFn, dispatch_callback_wrap_acquire, h4,
          invoke_and_release_block, h3, Block_release, Acquire, World.emit, user_free]
      · simp [Step.direct, dispatcher_run, h2, World.emit]
      · simp [hW]
      · simp [hD]
      · simp [List.filterMap_append, hobs, observe]
      · intro e he
        rcases List.mem_append.1 he with h6 | h6
        · exact hbk e h6
        · simp at h6; subst h6; rfl
      · intro hno
        have h7 := (hK (fun n q b hc => hno n q b (List.mem_append_left _ hc))).1 n1 q1 b1
        exact absurd (List.mem_iff_getElem?.2 ⟨i, h2⟩) h7

theorem Sim_script (al : Allocator) (fuel : Nat) (w0 : World) (script : List Step)
    (wW wD : World) (h : Sim w0 wW wD) :
    ∃ wW2 wD2, runScript (Step.wrapped al (fuel + 1)) script wW = some wW2
      ∧ runScript (Step.direct (fuel + 1)) script wD = some wD2 ∧ Sim w0 wW2 wD2 := by
  induction script generalizing wW wD with
  | nil => exact ⟨wW, wD, rfl, rfl, h⟩
  | cons st ss ih =>
    obtain ⟨wW1, wD1, h1, h2, h3⟩ := Sim_step al fuel w0 wW wD st h
    obtain ⟨wW2, wD2, h4, h5, h6⟩ := ih wW1 wD1 h3
    exact ⟨wW2, wD2, by simp [runScript, h1, h4], by simp [runScript, h2, h5], h6⟩

/-- C8: semantic transparency. For every allocator, from a world in which the
dispatcher holds no item, run any script of submissions (function-pointer or closure
form, any entry point, queue, context, user function, closure) and dispatcher actions
(run the item at a position once, or discard it) twice: with the wrappers and directly on
the original entry points. Both runs complete; the observable events they add
(submission kind and queue, user function applied to its argument, closure body run) are
the same sequence; the direct run adds no bookkeeping event, and every non-observable
event of the wrapped run is bookkeeping (allocation, free, closure copy or release,
`Release`, `Acquire`); when no closure entry point was called, it is record allocation
or free, `Release` or `Acquire`. -/
theorem wrappers_transparent (al : Allocator) (fuel : Nat) (script : List Step) (w : World)
    (hw : w.pending = []) :
    ∃ wW wD tW tD, runScript (Step.wrapped al (fuel + 1)) script w = some wW
      ∧ runScript (Step.direct (fuel + 1)) script w = some wD
      ∧ wW.trace = w.trace ++ tW ∧ wD.trace = w.trace ++ tD
      ∧ tW.filterMap observe = tD.filterMap observe
      ∧ (∀ e ∈ tD, isBookkeeping e = false)
      ∧ (∀ e ∈ tW, observe e = none → isBookkeeping e = true)
      ∧ ((∀ n q b, Event.real_b n q b ∉ tD) →
          ∀ e ∈ tW, observe e = none → isRecordBookkeeping e = true)
      ∧ wW.pending.length = wD.pending.length := by
  have h0 : Sim w w w :=
    ⟨[], [], [], by rw [hw]; exact Pend.nil, by simp, by simp, rfl,
      by simp, fun _ => ⟨by simp [hw], by simp⟩⟩
  obtain ⟨wW, wD, h1, h2, used, tW, tD, hP, hW, hD, hobs, hbk, hK⟩ :=
    Sim_script al fuel w script w w h0
  refine ⟨wW, wD, tW, tD, h1, h2, hW, hD, hobs, hbk, ?_, fun hno => (hK hno).2,
    Pend_length hP⟩
  intro e _ he
  cases e <;> simp_all [observe, isBookkeeping]

/-- Witness for C8: with an allocator that hands out address 0 whenever it is free, two
submissions of different forms, run in the opposite order, then a third submission that
gets a freed address again. -/
theorem wrappers_transparent_witness :
    ∃ wW wD tW tD,
      runScript (Step.wrapped ⟨fun _ => 0, fun _ => 0⟩ (0 + 1))
          [.submit_f .dispatch_async_f 1 7 3, .submit_b .dispatch_barrier_sync 2 9,
           .run 1, .run 0, .submit_f .dispatch_sync_f 4 8 5, .run 0]
          ⟨fun _ => none, 0, [], []⟩ = some wW
      ∧ runScript (Step.direct (0 + 1))
          [.submit_f .dispatch_async_f 1 7 3, .submit_b .dispatch_barrier_sync 2 9,
           .run 1, .run 0, .submit_f .dispatch_sync_f 4 8 5, .run 0]
          ⟨fun _ => none, 0, [], []⟩ = some wD
      ∧ wW.trace = [] ++ tW ∧ wD.trace = [] ++ tD
      ∧ tW.filterMap observe = tD.filterMap observe
      ∧ (∀ e ∈ tD, isBookkeeping e = false)
      ∧ (∀ e ∈ tW, observe e = none → isBookkeeping e = true)
      ∧ ((∀ n q b, Event.real_b n q b ∉ tD) →
          ∀ e ∈ tW, observe e = none → isRecordBookkeeping e = true)
      ∧ wW.pending.length = wD.pending.length :=
  wrappers_transparent ⟨fun _ => 0, fun _ => 0⟩ 0
    [.submit_f .dispatch_async_f 1 7 3, .submit_b .dispatch_barrier_sync 2 9, .run 1, .run 0,
     .submit_f .dispatch_sync_f 4 8 5, .run 0]
    ⟨fun _ => none, 0, [], []⟩ rfl

/-- An address handed out again: with the allocator that prefers address 0, two
submissions in a row, each run before the next, both use record 0, so the trace holds
two `Release(0)` and two `Acquire(0)`, alternating. -/
theorem reuse_example :
    (runScript (Step.wrapped ⟨fun _ => 0, fun _ => 0⟩ 1)
        [.submit_f .dispatch_sync_f 1 7 3, .run 0,
         .submit_f .dispatch_barrier_async_f 1 8 4, .run 0]
        ⟨fun _ => none, 0, [], []⟩).map (fun w => w.trace)
      = some [.user_alloc 0, .release 0,
          .real_f .dispatch_sync_f 1 0 .dispatch_callback_wrap_acquire,
          .acquire 0, .call 3 7, .user_free 0,
          .user_alloc 0, .release 0,
          .real_f .dispatch_barrier_async_f 1 0 .dispatch_callback_wrap_acquire,
          .acquire 0, .call 4 8, .user_free 0] := by
  decide

end Submit
